import Mathlib

/-!
# SmallVector (src/2025-12/11.cpp): a shallow embedding

The class template `SmallVector<T, N>` keeps its first `N` elements in raw
storage inside the object and moves to a `std::vector<T>` member on the
append that finds the inline storage full.

Modelling conventions.

* Element values are values of an arbitrary Lean type `T`.  A copy or a move
  construction either throws, leaving its source as it was, or gives the
  destination the value of its source; a move that returns leaves
  `Env.residue v` in the source object.
* `std::size_t` quantities are natural numbers.  The member array
  `std::byte[sizeof(T) * N]` and the vector's `max_size()` keep `N` and the
  length below `2^63`, so neither `++size_` nor `size_ * 2 + 1` can wrap.
* Pointers are pairs of a memory block and an element offset.
* `std::vector<T>` is modelled by its contract: element sequence, capacity,
  identity of the allocated buffer, strong guarantee for `push_back`.
  Relocation of existing elements on growth is taken not to throw.
* Whatever the environment decides (does an allocation succeed, how much
  capacity the library adds, does an element constructor throw) is read from
  an `Env` that is passed to every call.
* A ghost trace records element lifetime events in inline slots, heap
  allocations and what is written to `std::cerr`.
-/

namespace SmallVec

/-- Exceptions that can leave an append: `std::bad_alloc` from the allocator,
or whatever the element type's own constructor throws. -/
inductive Exn where
  | bad_alloc
  | element
  deriving DecidableEq, Repr

/-- Outcome of a call that can throw: normal return, an exception together
with the state it leaves behind, or undefined behaviour (an object is read
from raw storage that holds none). -/
inductive Res (σ : Type) where
  | ok (s : σ)
  | thrown (e : Exn) (s : σ)
  | undefined
  deriving DecidableEq, Repr

/-- Events of the ghost trace. -/
inductive Event where
  | construct_inline (i : Nat)
  | move_from_inline (i : Nat)
  | destroy_inline_elem (i : Nat)
  | cerr (msg : String)
  | heap_alloc (cap : Nat)
  | heap_free
  | destroy_heap_elem (i : Nat)
  | install_heap
  deriving DecidableEq, Repr

/-- The text `destroy_inline` writes to `std::cerr` (line 240). -/
def destroy_notice : String := "Destroying inline...\n"

/-- What the environment decides during one call. -/
structure Env (T : Type) where
  /-- does the allocator grant a request for this many elements -/
  allocOk : Nat → Bool
  /-- capacity the library adds on top of the minimum a request needs -/
  slack : Nat → Nat
  /-- address of the buffer handed out by a granted request -/
  fresh : Nat
  /-- does `T(const T&)` throw on this value -/
  copyThrows : T → Bool
  /-- does `T(T&&)` throw on this value -/
  moveThrows : T → Bool
  /-- value left in an object that has been moved from -/
  residue : T → T

/-- An environment in which nothing fails, requests are granted exactly and a
moved-from object keeps its value (the behaviour of `int`). -/
def Env.benign (T : Type) : Env T :=
  ⟨fun _ => true, fun _ => 0, 1, fun _ => false, fun _ => false, fun v => v⟩

/-! ## Pointers -/

/-- Memory blocks a `T*` can point into. -/
inductive Block where
  | null
  | inline_storage
  | heap (addr : Nat)
  deriving DecidableEq, Repr

/-- A `T*`: a block and an offset counted in elements. -/
structure Ptr where
  block : Block
  off : Int
  deriving DecidableEq, Repr

/-- Pointer arithmetic `p + n`. -/
def Ptr.add (p : Ptr) (n : Int) : Ptr := ⟨p.block, p.off + n⟩

/-- Pointer difference `p - q`, defined for pointers into one block. -/
def Ptr.diff (p q : Ptr) : Option Int :=
  if p.block = q.block then some (p.off - q.off) else none

/-! ## `std::vector<T>` -/

/-- A `std::vector<T>`: elements, `capacity()`, address of the buffer. -/
structure StdVector (T : Type) where
  elems : List T
  cap : Nat
  buf : Nat
  deriving DecidableEq, Repr

/-- Outcome of a vector operation (strong guarantee: a throwing call leaves
the vector as it was), with the allocation events it caused. -/
inductive VRes (T : Type) where
  | ok (v : StdVector T) (ev : List Event)
  | thrown (e : Exn) (ev : List Event)
  deriving DecidableEq, Repr

namespace StdVector

variable {T : Type}

/-- A default-constructed vector: `std::vector<T> v{}`; no buffer,
`capacity() == 0`. -/
def empty : StdVector T := ⟨[], 0, 0⟩

/-- The `capacity()` member. -/
def capacity (v : StdVector T) : Nat := v.cap

/-- The `data()` member. -/
def data (v : StdVector T) : Ptr :=
  if 0 < v.cap then ⟨.heap v.buf, 0⟩ else ⟨.null, 0⟩

/-- Events of releasing the buffer a vector owns, if it owns one. -/
def release_events (v : StdVector T) : List Event :=
  if 0 < v.cap then [Event.heap_free] else []

/-- Events of `~vector()`: every element is destroyed, the buffer freed. -/
def destructor_events (v : StdVector T) : List Event :=
  (List.range v.elems.length).map Event.destroy_heap_elem ++ v.release_events

/-- The `reserve(n)` member. -/
def reserve (env : Env T) (v : StdVector T) (n : Nat) : VRes T :=
  if n ≤ v.cap then .ok v []
  else if env.allocOk (n + env.slack n) then
    .ok ⟨v.elems, n + env.slack n, env.fresh⟩
      (Event.heap_alloc (n + env.slack n) :: v.release_events)
  else .thrown .bad_alloc []

/-- The `push_back(x)` member; `ctorThrows` tells whether constructing the new
element from the argument throws. -/
def push_back (env : Env T) (v : StdVector T) (x : T) (ctorThrows : Bool) : VRes T :=
  if v.elems.length < v.cap then
    if ctorThrows then .thrown .element [] else .ok ⟨v.elems ++ [x], v.cap, v.buf⟩ []
  else
    let c := v.elems.length + 1 + env.slack (v.elems.length + 1)
    if env.allocOk c then
      if ctorThrows then .thrown .element [Event.heap_alloc c, Event.heap_free]
      else .ok ⟨v.elems ++ [x], c, env.fresh⟩ (Event.heap_alloc c :: v.release_events)
    else .thrown .bad_alloc []

/-- Read through `v[i]`; no value outside `[0, size())`. -/
def index (v : StdVector T) (i : Nat) : Option T := v.elems[i]?

/-- Write through `v[i] = x`; undefined outside `[0, size())`. -/
def assign (v : StdVector T) (i : Nat) (x : T) : Option (StdVector T) :=
  if i < v.elems.length then some ⟨v.elems.set i x, v.cap, v.buf⟩ else none

end StdVector

/-! ## The container -/

/-- The data members of `SmallVector<T, N>` (lines 248-250) and the ghost
trace.  A slot of `inline_storage_` is `none` while it is raw bytes and
`some v` while it holds a constructed object of value `v`. -/
structure SmallVector (T : Type) (N : Nat) where
  size_ : Nat
  heap_ : StdVector T
  inline_storage_ : List (Option T)
  trace : List Event
  deriving DecidableEq, Repr

/-- The nested `struct iterator` (lines 111-145): one pointer. -/
structure iterator where
  p : Ptr
  deriving DecidableEq, Repr

/-- The alias `using const_iterator = iterator;` (line 147). -/
abbrev const_iterator := iterator

namespace iterator

/-- The default constructor `iterator() : p(nullptr)`. -/
def default : iterator := ⟨⟨.null, 0⟩⟩

/-- Line 121: `it.operator->()`. -/
def arrow (it : iterator) : Ptr := it.p

/-- Pre-increment `++it`: the moved cursor. -/
def incr (it : iterator) : iterator := ⟨it.p.add 1⟩

/-- Post-increment `it++`: the old position is returned, the cursor moves. -/
def post_incr (it : iterator) : iterator × iterator := (it, ⟨it.p.add 1⟩)

/-- Pre-decrement `--it`: the moved cursor. -/
def decr (it : iterator) : iterator := ⟨it.p.add (-1)⟩

/-- Jump `it + n`. -/
def add (it : iterator) (n : Int) : iterator := ⟨it.p.add n⟩

/-- Distance `it - other`. -/
def sub (it other : iterator) : Option Int := it.p.diff other.p

/-- Comparison `it != o`. -/
def ne (it o : iterator) : Bool := it.p != o.p

/-- Comparison `it == o`. -/
def eq (it o : iterator) : Bool := it.p == o.p

end iterator

namespace SmallVector

variable {T : Type} {N : Nat}

/-- The constructor `SmallVector() noexcept : size_(0)`. -/
def new : SmallVector T N := ⟨0, StdVector.empty, List.replicate N none, []⟩

/-- Line 205: `heap_.capacity() > 0`. -/
def using_heap (s : SmallVector T N) : Bool := decide (0 < s.heap_.capacity)

/-- Lines 207-213: `reinterpret_cast<T*>(inline_storage_) + i`. -/
def inline_ptr (i : Nat) : Ptr := ⟨.inline_storage, (i : Int)⟩

/-- Read the object a pointer designates. -/
def load (s : SmallVector T N) (p : Ptr) : Option T :=
  if p.off < 0 then none
  else match p.block with
    | .null => none
    | .inline_storage => s.inline_storage_.getD p.off.toNat none
    | .heap a =>
        if a = s.heap_.buf ∧ 0 < s.heap_.cap then s.heap_.elems[p.off.toNat]? else none

/-- Assign to the object a pointer designates. -/
def store (s : SmallVector T N) (p : Ptr) (x : T) : Option (SmallVector T N) :=
  if p.off < 0 then none
  else match p.block with
    | .null => none
    | .inline_storage =>
        match s.inline_storage_.getD p.off.toNat none with
        | none => none
        | some _ => some { s with inline_storage_ := s.inline_storage_.set p.off.toNat (some x) }
    | .heap a =>
        if a = s.heap_.buf ∧ 0 < s.heap_.cap then
          (s.heap_.assign p.off.toNat x).map (fun h => { s with heap_ := h })
        else none

/-- Lines 238-245. -/
def destroy_inline (s : SmallVector T N) : SmallVector T N :=
  if !s.using_heap then
    { s with
      inline_storage_ :=
        (List.range s.size_).foldl (fun st i => st.set i none) s.inline_storage_
      trace := s.trace ++ Event.cerr destroy_notice ::
        (List.range s.size_).map Event.destroy_inline_elem }
  else s

/-- The loop of lines 227-229, started at index `i` with `n` iterations to go;
the scratch vector is carried along. -/
def move_to_heap (env : Env T) :
    Nat → Nat → SmallVector T N → StdVector T → Res (SmallVector T N × StdVector T)
  | _, 0, s, new_heap => .ok (s, new_heap)
  | i, n + 1, s, new_heap =>
    match s.load (inline_ptr i) with
    | none => .undefined
    | some x =>
      match new_heap.push_back env x (env.moveThrows x) with
      | .thrown e ev => .thrown e ({ s with trace := s.trace ++ ev }, new_heap)
      | .ok nh ev =>
        move_to_heap env (i + 1) n
          { s with
            inline_storage_ := s.inline_storage_.set i (some (env.residue x))
            trace := s.trace ++ ev ++ [Event.move_from_inline i] } nh

/-- Lines 215-236. -/
def switch_to_heap (env : Env T) (s : SmallVector T N) : Res (SmallVector T N) :=
  match (StdVector.empty : StdVector T).reserve env (s.size_ * 2 + 1) with
  | .thrown e ev => .thrown e { s with trace := s.trace ++ ev }
  | .ok new_heap ev =>
    let s0 : SmallVector T N := { s with trace := s.trace ++ ev }
    match move_to_heap env 0 s.size_ s0 new_heap with
    | .undefined => .undefined
    | .thrown e (s1, nh) => .thrown e { s1 with trace := s1.trace ++ nh.destructor_events }
    | .ok (s1, nh) =>
      let s2 := destroy_inline s1
      .ok { s2 with
            heap_ := nh
            trace := s2.trace ++ s2.heap_.release_events ++ [Event.install_heap] }

/-- The common tail `heap_.push_back(v); ++size_;` of both overloads. -/
def heap_push_back (env : Env T) (s : SmallVector T N) (v : T) (ctorThrows : Bool) :
    Res (SmallVector T N) :=
  match s.heap_.push_back env v ctorThrows with
  | .thrown e ev => .thrown e { s with trace := s.trace ++ ev }
  | .ok h ev => .ok { s with heap_ := h, size_ := s.size_ + 1, trace := s.trace ++ ev }

/-- Lines 153-164: `void push_back(const T& v)`. -/
def push_back (env : Env T) (s : SmallVector T N) (v : T) : Res (SmallVector T N) :=
  if !s.using_heap then
    if s.size_ < N then
      if env.copyThrows v then .thrown .element s
      else .ok { s with
                 inline_storage_ := s.inline_storage_.set s.size_ (some v)
                 size_ := s.size_ + 1
                 trace := s.trace ++ [Event.construct_inline s.size_] }
    else
      match switch_to_heap env s with
      | .ok s1 => heap_push_back env s1 v (env.copyThrows v)
      | r => r
  else heap_push_back env s v (env.copyThrows v)

/-- Lines 166-177: `void push_back(T&& v)`. -/
def push_back_move (env : Env T) (s : SmallVector T N) (v : T) : Res (SmallVector T N) :=
  if !s.using_heap then
    if s.size_ < N then
      if env.moveThrows v then .thrown .element s
      else .ok { s with
                 inline_storage_ := s.inline_storage_.set s.size_ (some v)
                 size_ := s.size_ + 1
                 trace := s.trace ++ [Event.construct_inline s.size_] }
    else
      match switch_to_heap env s with
      | .ok s1 => heap_push_back env s1 v (env.moveThrows v)
      | r => r
  else heap_push_back env s v (env.moveThrows v)

/-- Lines 179-184, read through the returned reference: `sv[i]`. -/
def get (s : SmallVector T N) (i : Nat) : Option T :=
  if s.using_heap then s.heap_.index i else s.load (inline_ptr i)

/-- Lines 179-181, write through the returned reference: `sv[i] = x`. -/
def set (s : SmallVector T N) (i : Nat) (x : T) : Option (SmallVector T N) :=
  if s.using_heap then (s.heap_.assign i x).map (fun h => { s with heap_ := h })
  else s.store (inline_ptr i) x

/-- Line 186. -/
def size (s : SmallVector T N) : Nat := s.size_

/-- Line 187. -/
def empty (s : SmallVector T N) : Bool := s.size_ == 0

/-- Lines 189-191. -/
def begin (s : SmallVector T N) : iterator :=
  ⟨if s.using_heap then s.heap_.data else inline_ptr 0⟩

/-- Lines 192-194 (`end` is a reserved word of Lean). -/
def end_ (s : SmallVector T N) : iterator :=
  ⟨if s.using_heap then s.heap_.data.add s.size_ else inline_ptr s.size_⟩

/- The const overloads of `begin` and `end` (lines 195-202) are not embedded.
In a const member function `inline_ptr` resolves to the overload of line 211,
which returns `const T*`; the conditional then has type `const T*`, and
`explicit iterator(T*)` of line 119 does not take it.  The two bodies are
ill-formed when instantiated (`main` never calls them), so there is no
function to translate. -/

/-- Line 151 followed by the destruction of the members: `destroy_inline()`,
then `heap_.~vector()`. -/
def destructor (s : SmallVector T N) : SmallVector T N :=
  let s1 := destroy_inline s
  { s1 with
    heap_ := StdVector.empty
    trace := s1.trace ++ s1.heap_.destructor_events }

end SmallVector

namespace iterator

variable {T : Type} {N : Nat}

/-- Line 120, read: `*it`. -/
def deref (s : SmallVector T N) (it : iterator) : Option T := s.load it.p

/-- Line 120, write through the returned `T&`: `*it = x`. -/
def assign (s : SmallVector T N) (it : iterator) (x : T) : Option (SmallVector T N) :=
  s.store it.p x

/-- Line 139, read: `it[n]`. -/
def index (s : SmallVector T N) (it : iterator) (n : Int) : Option T := s.load (it.p.add n)

/-- Line 139, write through the returned `T&`: `it[n] = x`. -/
def index_assign (s : SmallVector T N) (it : iterator) (n : Int) (x : T) :
    Option (SmallVector T N) :=
  s.store (it.p.add n) x

end iterator

namespace SmallVector

variable {T : Type} {N : Nat}

/-- The loop a range-based `for` over `[it, last)` runs: while `it != last`,
read `*it`, then `++it`.  `none` when the fuel runs out or a read is
undefined. -/
def walk (s : SmallVector T N) : Nat → iterator → iterator → Option (List T)
  | 0, _, _ => none
  | fuel + 1, it, last =>
    if it.ne last then
      match it.deref s with
      | none => none
      | some x => (walk s fuel it.incr last).map (fun xs => x :: xs)
    else some []

/-- Line 260: `for (auto x : sv)`, collecting the values read. -/
def range_for (fuel : Nat) (s : SmallVector T N) : Option (List T) :=
  walk s fuel s.begin s.end_

/-- A run of appends by copy, each call with its own environment; an
exception or undefined behaviour ends the run. -/
def push_all : SmallVector T N → List (Env T × T) → Res (SmallVector T N)
  | s, [] => .ok s
  | s, (env, v) :: rest =>
    match push_back env s v with
    | .ok s1 => push_all s1 rest
    | r => r

/-- The loop of `main` (lines 256-259) for values `vs`, nothing failing. -/
def push_values (s : SmallVector T N) (vs : List T) : Res (SmallVector T N) :=
  push_all s (vs.map (fun v => (Env.benign T, v)))

end SmallVector

/-! ## Specification vocabulary -/

namespace SmallVector

variable {T : Type} {N : Nat}

/-- The body shared by the two overloads of `push_back`; `ctorThrows` tells
whether constructing the new element from the argument throws. -/
def push_back_with (ctorThrows : Bool) (env : Env T) (s : SmallVector T N) (v : T) :
    Res (SmallVector T N) :=
  if !s.using_heap then
    if s.size_ < N then
      if ctorThrows then .thrown .element s
      else .ok { s with
                 inline_storage_ := s.inline_storage_.set s.size_ (some v)
                 size_ := s.size_ + 1
                 trace := s.trace ++ [Event.construct_inline s.size_] }
    else
      match switch_to_heap env s with
      | .ok s1 => heap_push_back env s1 v ctorThrows
      | r => r
  else heap_push_back env s v ctorThrows

/-- Capacity of the buffer that `switch_to_heap` reserves for `n` elements. -/
def switch_capacity (env : Env T) (n : Nat) : Nat := n * 2 + 1 + env.slack (n * 2 + 1)

/-- Events a completed `switch_to_heap` appends to the trace. -/
def switch_events (env : Env T) (n : Nat) : List Event :=
  Event.heap_alloc (switch_capacity env n) :: (List.range n).map Event.move_from_inline
    ++ Event.cerr destroy_notice :: (List.range n).map Event.destroy_inline_elem
    ++ [Event.install_heap]

/-- The relation `Models s l`: the container holds exactly the elements `l`,
either in the inline slots (heap buffer absent and empty) or in the heap
buffer (every inline slot raw). -/
def Models (s : SmallVector T N) (l : List T) : Prop :=
  s.size_ = l.length ∧
  ((s.heap_.cap = 0 ∧ s.heap_.elems = [] ∧ l.length ≤ N ∧
      s.inline_storage_ = l.map some ++ List.replicate (N - l.length) none) ∨
   (0 < s.heap_.cap ∧ s.heap_.elems = l ∧ N ≤ l.length ∧ l.length ≤ s.heap_.cap ∧
      s.inline_storage_ = List.replicate N none))

/-- One public operation taking the container from one observable state to the
next: an append by copy or by move (returning normally or by exception), a
write through `sv[i]` or through a cursor, or one of the read-only calls
(`operator[]` as a read, `size`, `empty`, `begin`, `end`, reads through a
cursor), which leave the state as it is. -/
inductive Step : SmallVector T N → SmallVector T N → Prop where
  | push_back_ok (env : Env T) (s : SmallVector T N) (v : T) (s' : SmallVector T N) :
      push_back env s v = .ok s' → Step s s'
  | push_back_thrown (env : Env T) (s : SmallVector T N) (v : T) (e : Exn)
      (s' : SmallVector T N) : push_back env s v = .thrown e s' → Step s s'
  | push_back_move_ok (env : Env T) (s : SmallVector T N) (v : T) (s' : SmallVector T N) :
      push_back_move env s v = .ok s' → Step s s'
  | push_back_move_thrown (env : Env T) (s : SmallVector T N) (v : T) (e : Exn)
      (s' : SmallVector T N) : push_back_move env s v = .thrown e s' → Step s s'
  | set (s : SmallVector T N) (i : Nat) (x : T) (s' : SmallVector T N) :
      s.set i x = some s' → Step s s'
  | assign (s : SmallVector T N) (it : iterator) (x : T) (s' : SmallVector T N) :
      it.assign s x = some s' → Step s s'
  | read (s : SmallVector T N) : Step s s

/-- States a container can be in between public operations. -/
inductive Reachable : SmallVector T N → Prop where
  | new : Reachable new
  | step {s s' : SmallVector T N} : Reachable s → Step s s' → Reachable s'

/-- Number of completed switchovers: installations of a heap buffer (line 235). -/
def switchovers (s : SmallVector T N) : Nat := s.trace.count Event.install_heap

/-- Is the event a heap allocation. -/
def Event.is_heap_alloc : Event → Bool
  | .heap_alloc _ => true
  | _ => false

/-- Number of heap allocations made so far. -/
def heap_allocations (s : SmallVector T N) : Nat := s.trace.countP Event.is_heap_alloc

/-- A run of append calls in which the caller catches whatever a call throws
and goes on with the next call; `none` on undefined behaviour. -/
def push_each : SmallVector T N → List (Env T × T) → Option (SmallVector T N)
  | s, [] => some s
  | s, (env, v) :: rest =>
    match push_back env s v with
    | .ok s1 => push_each s1 rest
    | .thrown _ s1 => push_each s1 rest
    | .undefined => none

/-- A call that writes an element: an append by copy or by move, or
`sv[i] = x`. -/
inductive Op (T : Type) where
  | append (env : Env T) (v : T)
  | append_move (env : Env T) (v : T)
  | set (i : Nat) (x : T)

/-- Run one writing call; `none` unless it returns normally. -/
def run_op (s : SmallVector T N) : Op T → Option (SmallVector T N)
  | .append env v =>
    match push_back env s v with
    | .ok s' => some s'
    | _ => none
  | .append_move env v =>
    match push_back_move env s v with
    | .ok s' => some s'
    | _ => none
  | .set i x => s.set i x

/-- Run a sequence of writing calls. -/
def run_ops : SmallVector T N → List (Op T) → Option (SmallVector T N)
  | s, [] => some s
  | s, op :: rest =>
    match run_op s op with
    | some s' => run_ops s' rest
    | none => none

/-- The value most recently written at index `i` by a sequence of calls made
on a container of `n` elements whose index `i` so far holds `cur`: the append
made at length `i` creates index `i`, a later `set i x` overwrites it. -/
def last_written (i : Nat) : Nat → Option T → List (Op T) → Option T
  | _, cur, [] => cur
  | n, cur, .append _ v :: rest => last_written i (n + 1) (if n = i then some v else cur) rest
  | n, cur, .append_move _ v :: rest =>
      last_written i (n + 1) (if n = i then some v else cur) rest
  | n, cur, .set j x :: rest => last_written i n (if j = i then some x else cur) rest

/-- The relation `AppendedOnly s l`: the container holds `l`, is in heap mode exactly when
`l` is longer than `N`, has completed a switchover exactly in that case, and
has allocated nothing while `l` fits inline.  This is what holds after a run
of appends that all returned normally. -/
def AppendedOnly (s : SmallVector T N) (l : List T) : Prop :=
  Models s l ∧ (s.heap_.cap = 0 ↔ l.length ≤ N) ∧
  switchovers s = (if l.length ≤ N then 0 else 1) ∧
  (l.length ≤ N → heap_allocations s = 0)

/-- A container of inline capacity 2 after the appends of 5 and 6: inline and
full. -/
def full_inline_example : SmallVector Nat 2 :=
  ⟨2, StdVector.empty, [some 5, some 6],
    [Event.construct_inline 0, Event.construct_inline 1]⟩

/-- The state `full_inline_example` after the append of 7, which switches to
the heap. -/
def switched_example : SmallVector Nat 2 :=
  ⟨3, ⟨[5, 6, 7], 5, 1⟩, [none, none],
    [Event.construct_inline 0, Event.construct_inline 1, Event.heap_alloc 5,
     Event.move_from_inline 0, Event.move_from_inline 1, Event.cerr destroy_notice,
     Event.destroy_inline_elem 0, Event.destroy_inline_elem 1, Event.install_heap]⟩

/-- The container of `main` after the loop of lines 256-259 (`N = 4`, values
0 to 9). -/
def main_example : SmallVector Nat 4 :=
  match push_values new (List.range 10) with
  | .ok s => s
  | _ => new

/-- Three appends into a container of inline capacity 4. -/
def three_example : SmallVector Nat 4 :=
  ⟨3, StdVector.empty, [some 7, some 8, some 9, none],
    [Event.construct_inline 0, Event.construct_inline 1, Event.construct_inline 2]⟩

/-- Two appends, an overwrite of index 0, the append that switches to the
heap, and an overwrite of index 1. -/
def example_ops : List (Op Nat) :=
  [Op.append (Env.benign Nat) 5, Op.append (Env.benign Nat) 6, Op.set 0 9,
   Op.append_move (Env.benign Nat) 7, Op.set 1 4]

/-- The container after `example_ops` on a new container of inline capacity 2. -/
def example_ops_result : SmallVector Nat 2 :=
  ⟨3, ⟨[9, 4, 7], 5, 1⟩, [none, none], switched_example.trace⟩

end SmallVector

/-! ## Vocabulary for the cursor, failures and the switchover -/

namespace iterator

/-- The four ways of moving a cursor by one position that the capability set
of the cursor names. -/
inductive Move where
  | pre_incr
  | post_incr
  | pre_decr
  | post_decr
  deriving DecidableEq, Repr

/-- The movement `m` applied to a cursor: the value of the expression and the
cursor afterwards.  Lines 122-134 declare `operator++()`, `operator++(int)`
and `operator--()`; there is no `operator--(int)`, so a post-decrement has no
meaning for this type. -/
def move : Move → iterator → Option (iterator × iterator)
  | .pre_incr, it => some (it.incr, it.incr)
  | .post_incr, it => some it.post_incr
  | .pre_decr, it => some (it.decr, it.decr)
  | .post_decr, _ => none

end iterator

namespace SmallVector

variable {T : Type} {N : Nat}

/-- Number of live elements the container holds: constructed inline slots
plus elements of the heap buffer. -/
def live_elements (s : SmallVector T N) : Nat :=
  s.inline_storage_.countP Option.isSome + s.heap_.elems.length

/-- Does the first occurrence of event `a` in a trace come before the first
occurrence of event `b`, both occurring. -/
def precedes (a b : Event) (tr : List Event) : Bool :=
  decide (tr.indexOf a < tr.indexOf b ∧ tr.indexOf b < tr.length)

/-- An environment whose allocator grants nothing. -/
def no_memory_env : Env Nat :=
  ⟨fun _ => false, fun _ => 0, 1, fun _ => false, fun _ => false, fun v => v⟩

/-- An environment in which moving an element of value `bad` throws and a
moved-from element is left holding 0. -/
def throwing_move_env (bad : Nat) : Env Nat :=
  ⟨fun _ => true, fun _ => 0, 1, fun _ => false, fun v => v == bad, fun _ => 0⟩

/-- The state `full_inline_example` after `switch_to_heap` alone. -/
def switch_only_example : SmallVector Nat 2 :=
  ⟨2, ⟨[5, 6], 5, 1⟩, [none, none],
    [Event.construct_inline 0, Event.construct_inline 1, Event.heap_alloc 5,
     Event.move_from_inline 0, Event.move_from_inline 1, Event.cerr destroy_notice,
     Event.destroy_inline_elem 0, Event.destroy_inline_elem 1, Event.install_heap]⟩

/-- The state `full_inline_example` after an append in which the move of the
second element (value 6) throws during `switch_to_heap`: the first slot holds
a moved-from object, the scratch buffer has been released. -/
def move_failed_example : SmallVector Nat 2 :=
  ⟨2, StdVector.empty, [some 0, some 6],
    [Event.construct_inline 0, Event.construct_inline 1, Event.heap_alloc 5,
     Event.move_from_inline 0, Event.destroy_heap_elem 0, Event.heap_free]⟩

end SmallVector

namespace SmallVector

variable {T : Type} {N : Nat}

/-- The container and the scratch vector inside `switch_to_heap` after lines
223-224 and the first `k` iterations of the loop of lines 227-229. -/
def switch_populated (env : Env T) (s : SmallVector T N) (k : Nat) :
    Res (SmallVector T N × StdVector T) :=
  match (StdVector.empty : StdVector T).reserve env (s.size_ * 2 + 1) with
  | .thrown e ev => .thrown e ({ s with trace := s.trace ++ ev }, StdVector.empty)
  | .ok new_heap ev =>
    let s0 : SmallVector T N := { s with trace := s.trace ++ ev }
    move_to_heap env 0 k s0 new_heap

/-- The container and the scratch vector inside `switch_to_heap` after line
232, before the installation of line 235. -/
def switch_destroyed (env : Env T) (s : SmallVector T N) :
    Res (SmallVector T N × StdVector T) :=
  match switch_populated env s s.size_ with
  | .ok (s1, nh) => .ok (destroy_inline s1, nh)
  | r => r

end SmallVector

/-! ## Vocabulary for the notice, lifetimes and relocation -/

namespace SmallVector

variable {T : Type} {N : Nat}

/-- Number of times the notice of line 240 has been written to `std::cerr`. -/
def notices (s : SmallVector T N) : Nat := s.trace.count (Event.cerr destroy_notice)

/-- Is the event a lifetime event of an inline slot: a construction in the
slot or a destruction of the object in it. -/
def is_slot_event : Event → Bool
  | .construct_inline _ => true
  | .destroy_inline_elem _ => true
  | _ => false

/-- The lifetime events of inline slots in a trace, in order. -/
def slot_events (tr : List Event) : List Event := tr.filter is_slot_event

/-- Is the event none of: a lifetime event of an inline slot, an output to
`std::cerr`, the installation of the heap buffer. -/
def is_quiet_event : Event → Bool
  | .construct_inline _ => false
  | .destroy_inline_elem _ => false
  | .cerr _ => false
  | .install_heap => false
  | _ => true

/-- The bookkeeping every reachable state satisfies: the notice has been
written once per completed switchover, a switchover has completed exactly in
heap mode, the inline slots constructed so far are `0 .. size()-1` in inline
mode and `0 .. N-1` in heap mode, each once, the slots destroyed so far are
none in inline mode and `0 .. N-1` in heap mode, each once, and a heap buffer
in use has capacity at least `2N + 1`. -/
def Ledger (s : SmallVector T N) : Prop :=
  notices s = switchovers s ∧
  switchovers s = (if s.using_heap then 1 else 0) ∧
  slot_events s.trace =
    (List.range (if s.using_heap then N else s.size_)).map Event.construct_inline
      ++ (if s.using_heap then (List.range N).map Event.destroy_inline_elem else []) ∧
  (s.using_heap = true → 2 * N + 1 ≤ s.heap_.cap)

/-- An environment in which copying an element throws. -/
def throwing_copy_env : Env Nat :=
  ⟨fun _ => true, fun _ => 0, 1, fun _ => true, fun _ => false, fun v => v⟩

/-- An environment in which nothing fails and the allocator hands out the
buffer at address 2. -/
def second_buffer_env : Env Nat :=
  ⟨fun _ => true, fun _ => 0, 2, fun _ => false, fun _ => false, fun v => v⟩

/-- A container of inline capacity 2 after the appends of 5, 6, 7, 8, 9: the
heap buffer reserved by the switchover, of capacity 5, is full. -/
def full_heap_example : SmallVector Nat 2 :=
  ⟨5, ⟨[5, 6, 7, 8, 9], 5, 1⟩, [none, none], switched_example.trace⟩

end SmallVector

namespace SmallVector

variable {T : Type} {N : Nat}

/-- Number of inline slots in which an element has been constructed: all `N`
once the container is in heap mode, `size()` while it is inline. -/
def slots_used (s : SmallVector T N) : Nat := if s.using_heap then N else s.size_

/-- Is the event a construction in an inline slot. -/
def is_inline_construction : Event → Bool
  | .construct_inline _ => true
  | _ => false

/-- Is the event a destruction of the object in an inline slot. -/
def is_inline_destruction : Event → Bool
  | .destroy_inline_elem _ => true
  | _ => false

end SmallVector

/-! ## Lemmas on the model -/

namespace SmallVector

variable {T : Type} {N : Nat}

theorem foldl_set_none (n : Nat) (l : List (Option T)) (h : n ≤ l.length) :
    (List.range n).foldl (fun st i => st.set i none) l
      = List.replicate n none ++ l.drop n := by
  induction n with
  | zero => simp
  | succ n ih =>
    rw [List.range_succ, List.foldl_append, ih (by omega)]
    apply List.ext_getElem?
    intro j
    simp only [List.foldl_cons, List.foldl_nil, List.getElem?_set, List.getElem?_append,
      List.length_replicate, List.getElem?_replicate, List.getElem?_drop, List.length_set,
      List.length_append, List.length_drop]
    by_cases h1 : n = j
    · subst h1; simp; omega
    · by_cases h2 : j < n
      · have h3 : j < n + 1 := by omega
        simp [h1, h2, h3]
      · have h3 : ¬ j < n + 1 := by omega
        simp [h1, h2, h3]
        congr 1; omega

theorem models_new : Models (new : SmallVector T N) [] := by
  simp [Models, new, StdVector.empty]

theorem getD_map_some_append (l : List T) (k i : Nat) :
    (l.map some ++ List.replicate k none).getD i none = l[i]? := by
  rw [List.getD_eq_getElem?_getD]
  by_cases h : i < l.length
  · simp [List.getElem?_append_left, h]
  · have h2 : l.length ≤ i := by omega
    rw [List.getElem?_append_right (by simpa using h2)]
    simp [List.getElem?_replicate, h2]
    split <;> simp [h2]

theorem load_inline_ptr (s : SmallVector T N) (i : Nat) :
    s.load (inline_ptr i) = s.inline_storage_.getD i none := by
  have : ¬ ((i : Int) < 0) := by omega
  simp [load, inline_ptr, this]

theorem get_of_models {s : SmallVector T N} {l : List T} (h : Models s l) (i : Nat) :
    s.get i = l[i]? := by
  obtain ⟨_, h | h⟩ := h
  · obtain ⟨hc, _, _, hs⟩ := h
    rw [get, load_inline_ptr, hs, getD_map_some_append]
    simp [using_heap, StdVector.capacity, hc]
  · obtain ⟨hc, he, _, _, _⟩ := h
    simp [get, using_heap, StdVector.capacity, hc, StdVector.index, he]

theorem vec_push_back_room (env : Env T) (v : StdVector T) (x : T) (ct : Bool)
    (h : v.elems.length < v.cap) :
    v.push_back env x ct
      = if ct then .thrown .element [] else .ok ⟨v.elems ++ [x], v.cap, v.buf⟩ [] := by
  simp [StdVector.push_back, h]

theorem load_middle (s : SmallVector T N) (pre post : List (Option T)) (x : T) (rest : List T)
    (h : s.inline_storage_ = pre ++ (x :: rest).map some ++ post) :
    s.load (inline_ptr pre.length) = some x := by
  rw [load_inline_ptr, h, List.getD_eq_getElem?_getD, List.append_assoc,
    List.getElem?_append_right (le_refl _)]
  simp

theorem set_middle (pre post : List (Option T)) (x : T) (rest : List T) (y : Option T) :
    (pre ++ (x :: rest).map some ++ post).set pre.length y
      = (pre ++ [y]) ++ rest.map some ++ post := by
  simp [List.set_append]

theorem move_to_heap_spec (env : Env T) (n : Nat) :
    ∀ (i : Nat) (s : SmallVector T N) (nh : StdVector T) (pre : List (Option T))
      (todo : List T) (post : List (Option T)),
      s.inline_storage_ = pre ++ todo.map some ++ post → pre.length = i → todo.length = n →
      nh.elems.length + n ≤ nh.cap →
      (∀ s1 nh1, move_to_heap env i n s nh = .ok (s1, nh1) →
          nh1 = ⟨nh.elems ++ todo, nh.cap, nh.buf⟩ ∧
          s1 = { s with
                 inline_storage_ := pre ++ todo.map (fun x => some (env.residue x)) ++ post
                 trace := s.trace ++ (List.range' i n).map Event.move_from_inline }) ∧
      (∀ e s1 nh1, move_to_heap env i n s nh = .thrown e (s1, nh1) →
          e = Exn.element ∧ s1.size_ = s.size_ ∧ s1.heap_ = s.heap_ ∧ nh1.cap = nh.cap ∧
          (∃ k, k < n ∧ nh1.elems.length = nh.elems.length + k ∧
            s1.trace = s.trace ++ (List.range' i k).map Event.move_from_inline) ∧
          ∃ todo' : List T, todo'.length = n ∧
            s1.inline_storage_ = pre ++ todo'.map some ++ post) ∧
      move_to_heap env i n s nh ≠ .undefined ∧
      ((∀ x ∈ todo, env.moveThrows x = false) → ∃ r, move_to_heap env i n s nh = .ok r) := by
  induction n with
  | zero =>
    intro i s nh pre todo post hs hi hn hcap
    have ht : todo = [] := List.length_eq_zero.mp hn
    subst ht
    cases s; cases nh
    simp_all [move_to_heap]
  | succ n ih =>
    intro i s nh pre todo post hs hi hn hcap
    obtain ⟨x, rest, rfl⟩ : ∃ x rest, todo = x :: rest := by
      cases todo with
      | nil => simp at hn
      | cons x rest => exact ⟨x, rest, rfl⟩
    have hlen : rest.length = n := by simpa using hn
    subst hi
    have hload := load_middle s pre post x rest hs
    have hroom : nh.elems.length < nh.cap := by omega
    by_cases hthrow : env.moveThrows x = true
    · have hm : move_to_heap env pre.length (n + 1) s nh
          = .thrown .element ({ s with trace := s.trace ++ [] }, nh) := by
        simp [move_to_heap, hload, vec_push_back_room, hroom, hthrow]
      rw [hm]
      refine ⟨by simp, ?_, by simp, ?_⟩
      · intro e s1 nh1 h
        simp only [Res.thrown.injEq, Prod.mk.injEq] at h
        obtain ⟨rfl, rfl, rfl⟩ := h
        refine ⟨rfl, rfl, rfl, rfl, ⟨0, by omega, by simp, by simp⟩, x :: rest, by simpa using hlen, ?_⟩
        simpa using hs
      · intro h
        have := h x (by simp)
        simp [hthrow] at this
    · have hthrow' : env.moveThrows x = false := by simpa using hthrow
      have hm : move_to_heap env pre.length (n + 1) s nh
          = move_to_heap env (pre.length + 1) n
              { s with
                inline_storage_ := s.inline_storage_.set pre.length (some (env.residue x))
                trace := s.trace ++ [] ++ [Event.move_from_inline pre.length] }
              ⟨nh.elems ++ [x], nh.cap, nh.buf⟩ := by
        simp [move_to_heap, hload, vec_push_back_room, hroom, hthrow']
      rw [hm]
      have hset := set_middle pre post x rest (some (env.residue x))
      rw [← hs] at hset
      obtain ⟨h1, h2, h3, h4⟩ := ih (pre.length + 1)
        { s with
          inline_storage_ := s.inline_storage_.set pre.length (some (env.residue x))
          trace := s.trace ++ [] ++ [Event.move_from_inline pre.length] }
        ⟨nh.elems ++ [x], nh.cap, nh.buf⟩ (pre ++ [some (env.residue x)]) rest post
        hset (by simp) hlen (by simp; omega)
      refine ⟨?_, ?_, h3, ?_⟩
      · intro s1 nh1 h
        obtain ⟨e1, e2⟩ := h1 s1 nh1 h
        subst e1 e2
        simp [List.range'_succ]
      · intro e s1 nh1 h
        obtain ⟨e1, e2, e3, e4, ⟨k, hk, hk1, hk2⟩, todo', ht1, ht2⟩ := h2 e s1 nh1 h
        refine ⟨e1, e2, e3, e4, ⟨k + 1, by omega, ?_, ?_⟩, env.residue x :: todo', by simp [ht1], ?_⟩
        · simp at hk1; omega
        · simp [hk2, List.range'_succ]
        · simp [ht2]
      · intro h
        exact h4 (fun y hy => h y (by simp [hy]))

theorem push_back_eq_with (env : Env T) (s : SmallVector T N) (v : T) :
    push_back env s v = push_back_with (env.copyThrows v) env s v := rfl

theorem push_back_move_eq_with (env : Env T) (s : SmallVector T N) (v : T) :
    push_back_move env s v = push_back_with (env.moveThrows v) env s v := rfl

theorem models_trace (s : SmallVector T N) (l : List T) (t : List Event) :
    Models ({ s with trace := t } : SmallVector T N) l ↔ Models s l := by
  simp [Models]

theorem destroy_inline_spec (s : SmallVector T N) (l : List T) (k : Nat)
    (hc : s.heap_.cap = 0) (hn : s.size_ = l.length)
    (hs : s.inline_storage_ = l.map some ++ List.replicate k none) :
    destroy_inline s =
      { s with
        inline_storage_ := List.replicate (l.length + k) none
        trace := s.trace ++ Event.cerr destroy_notice ::
          (List.range l.length).map Event.destroy_inline_elem } := by
  have h1 : (List.range s.size_).foldl (fun st i => st.set i none) s.inline_storage_
      = List.replicate (l.length + k) none := by
    rw [foldl_set_none _ _ (by simp [hs, hn]), hs, hn]
    have : (l.map some).length = l.length := by simp
    rw [← this, List.drop_left, this, List.replicate_add]
  rw [hn] at h1
  simp [destroy_inline, using_heap, StdVector.capacity, hc, h1, hn]

theorem switch_to_heap_spec (env : Env T) (s : SmallVector T N) (l : List T)
    (hm : Models s l) (hc : s.heap_.cap = 0) (hN : l.length = N) :
    (∀ s', switch_to_heap env s = .ok s' →
        env.allocOk (switch_capacity env N) = true ∧
        s' = ⟨N, ⟨l, switch_capacity env N, env.fresh⟩, List.replicate N none,
              s.trace ++ switch_events env N⟩) ∧
    (∀ e s', switch_to_heap env s = .thrown e s' →
        s'.size_ = s.size_ ∧ s'.heap_ = s.heap_ ∧
        ∃ l' : List T, l'.length = l.length ∧ Models s' l') ∧
    switch_to_heap env s ≠ .undefined ∧
    (env.allocOk (switch_capacity env N) = true → (∀ x ∈ l, env.moveThrows x = false) →
      ∃ s', switch_to_heap env s = .ok s') := by
  obtain ⟨hsz, hmod | hmod⟩ := hm
  swap
  · omega
  obtain ⟨_, he, _, hst⟩ := hmod
  have hsN : s.size_ = N := by omega
  by_cases ha : env.allocOk (switch_capacity env N) = true
  · have hres : (StdVector.empty : StdVector T).reserve env (s.size_ * 2 + 1)
        = .ok ⟨[], switch_capacity env N, env.fresh⟩
            [Event.heap_alloc (switch_capacity env N)] := by
      simp only [switch_capacity] at ha
      simp [StdVector.reserve, StdVector.empty, StdVector.release_events, hsN, ha,
        switch_capacity]
    have hst' : s.inline_storage_ = [] ++ l.map some ++ List.replicate (N - l.length) none := by
      simpa using hst
    obtain ⟨h1, h2, h3, h4⟩ := move_to_heap_spec env s.size_ 0
      ({ s with trace := s.trace ++ [Event.heap_alloc (switch_capacity env N)] } :
        SmallVector T N)
      ⟨[], switch_capacity env N, env.fresh⟩ [] l (List.replicate (N - l.length) none)
      hst' rfl hsz.symm (by simp [switch_capacity]; omega)
    cases hmv : move_to_heap env 0 s.size_
      ({ s with trace := s.trace ++ [Event.heap_alloc (switch_capacity env N)] } :
        SmallVector T N)
      (⟨[], switch_capacity env N, env.fresh⟩ : StdVector T) with
    | undefined => exact absurd hmv h3
    | thrown e r =>
      obtain ⟨s1, nh1⟩ := r
      obtain ⟨_, e2, e3, _, _, todo', ht1, ht2⟩ := h2 e s1 nh1 hmv
      have hsw : switch_to_heap env s
          = .thrown e { s1 with trace := s1.trace ++ nh1.destructor_events } := by
        simp [switch_to_heap, hres, hmv]
      rw [hsw]
      refine ⟨by simp, ?_, by simp, fun _ hall => ?_⟩
      swap
      · obtain ⟨r, hr⟩ := h4 hall
        rw [hmv] at hr
        cases hr
      intro e' s' h
      simp only [Res.thrown.injEq] at h
      obtain ⟨_, rfl⟩ := h
      refine ⟨e2, e3, todo', by omega, ?_⟩
      rw [models_trace]
      refine ⟨by simp at e2; omega, Or.inl ⟨?_, ?_, by omega, ?_⟩⟩
      · rw [e3]; exact hc
      · rw [e3]; exact he
      · rw [ht2, ht1, hsz]; simp
    | ok r =>
      obtain ⟨s1, nh1⟩ := r
      obtain ⟨e1, e2⟩ := h1 s1 nh1 hmv
      have hd := destroy_inline_spec s1 (l.map env.residue) (N - l.length)
        (by rw [e2]; exact hc) (by rw [e2]; simpa using hsz)
        (by rw [e2]; simp)
      have hsw : switch_to_heap env s
          = .ok { destroy_inline s1 with
                  heap_ := nh1
                  trace := (destroy_inline s1).trace ++ (destroy_inline s1).heap_.release_events
                    ++ [Event.install_heap] } := by
        simp [switch_to_heap, hres, hmv]
      rw [hsw, hd]
      refine ⟨?_, by simp, by simp, by simp⟩
      intro s' h
      simp only [Res.ok.injEq] at h
      subst h
      refine ⟨ha, ?_⟩
      subst e1 e2
      simp [StdVector.release_events, hc, hsN, switch_events, hN, ← hsz, List.range_eq_range']
  · have ha' : env.allocOk (switch_capacity env N) = false := by simpa using ha
    have hres : (StdVector.empty : StdVector T).reserve env (s.size_ * 2 + 1)
        = .thrown .bad_alloc [] := by
      simp only [switch_capacity] at ha'
      simp [StdVector.reserve, StdVector.empty, hsN, ha']
    have hsw : switch_to_heap env s = .thrown .bad_alloc { s with trace := s.trace ++ [] } := by
      simp [switch_to_heap, hres]
    rw [hsw]
    refine ⟨by simp, ?_, by simp, fun h => absurd h ha⟩
    intro e s' h
    simp only [Res.thrown.injEq] at h
    obtain ⟨_, rfl⟩ := h
    refine ⟨rfl, rfl, l, rfl, ?_⟩
    rw [models_trace]
    exact ⟨hsz, Or.inl ⟨hc, he, by omega, hst⟩⟩

theorem using_heap_eq_false (s : SmallVector T N) : s.using_heap = false ↔ s.heap_.cap = 0 := by
  simp [using_heap, StdVector.capacity]

theorem using_heap_eq_true (s : SmallVector T N) : s.using_heap = true ↔ 0 < s.heap_.cap := by
  simp [using_heap, StdVector.capacity]

theorem heap_push_back_spec (env : Env T) (s : SmallVector T N) (l : List T) (v : T)
    (ct : Bool) (hm : Models s l) (hc : 0 < s.heap_.cap) :
    (∀ s', heap_push_back env s v ct = .ok s' →
        ct = false ∧ Models s' (l ++ [v]) ∧
        ((l.length < s.heap_.cap ∧
            s' = { s with heap_ := ⟨l ++ [v], s.heap_.cap, s.heap_.buf⟩, size_ := s.size_ + 1 }) ∨
         (s.heap_.cap ≤ l.length ∧
            s' = { s with
                   heap_ := ⟨l ++ [v], l.length + 1 + env.slack (l.length + 1), env.fresh⟩
                   size_ := s.size_ + 1
                   trace := s.trace ++
                     [Event.heap_alloc (l.length + 1 + env.slack (l.length + 1)),
                      Event.heap_free] }))) ∧
    (∀ e s', heap_push_back env s v ct = .thrown e s' →
        s'.size_ = s.size_ ∧ s'.heap_ = s.heap_ ∧ s'.inline_storage_ = s.inline_storage_ ∧
        Models s' l ∧
        (s'.trace = s.trace ∨
          ∃ c, s'.trace = s.trace ++ [Event.heap_alloc c, Event.heap_free]) ∧
        (l.length < s.heap_.cap → s' = s ∧ e = Exn.element ∧ ct = true)) ∧
    heap_push_back env s v ct ≠ .undefined ∧
    (ct = false → (l.length < s.heap_.cap ∨
        env.allocOk (l.length + 1 + env.slack (l.length + 1)) = true) →
      ∃ s', heap_push_back env s v ct = .ok s') := by
  obtain ⟨hsz, hmod | hmod⟩ := hm
  · omega
  obtain ⟨_, he, hN, hcap, hst⟩ := hmod
  have hmods : Models s l := ⟨hsz, Or.inr ⟨hc, he, hN, hcap, hst⟩⟩
  by_cases hroom : l.length < s.heap_.cap
  · cases ct with
    | true =>
      have hp : heap_push_back env s v true = .thrown .element { s with trace := s.trace ++ [] } := by
        simp [heap_push_back, StdVector.push_back, he, hroom]
      rw [hp]
      refine ⟨by simp, ?_, by simp, by simp⟩
      intro e s' h
      simp only [Res.thrown.injEq] at h
      obtain ⟨he', rfl⟩ := h
      exact ⟨rfl, rfl, rfl, (models_trace s l _).mpr hmods, Or.inl (by simp),
        fun _ => ⟨by simp, he'.symm, rfl⟩⟩
    | false =>
      have hp : heap_push_back env s v false
          = .ok { s with heap_ := ⟨l ++ [v], s.heap_.cap, s.heap_.buf⟩, size_ := s.size_ + 1,
                         trace := s.trace ++ [] } := by
        simp [heap_push_back, StdVector.push_back, he, hroom]
      rw [hp]
      refine ⟨?_, by simp, by simp, by simp⟩
      intro s' h
      simp only [Res.ok.injEq] at h
      subst h
      refine ⟨rfl, ?_, Or.inl ⟨hroom, by simp⟩⟩
      refine ⟨by simp [hsz], Or.inr ⟨hc, rfl, ?_, ?_, hst⟩⟩
      · simp; omega
      · simp; omega
  · have hroom' : s.heap_.cap ≤ l.length := by omega
    by_cases ha : env.allocOk (l.length + 1 + env.slack (l.length + 1)) = true
    · cases ct with
      | true =>
        have hp : heap_push_back env s v true
            = .thrown .element { s with trace := s.trace ++
                [Event.heap_alloc (l.length + 1 + env.slack (l.length + 1)), Event.heap_free] } := by
          simp [heap_push_back, StdVector.push_back, he, hroom, ha]
        rw [hp]
        refine ⟨by simp, ?_, by simp, by simp⟩
        intro e s' h
        simp only [Res.thrown.injEq] at h
        obtain ⟨_, rfl⟩ := h
        exact ⟨rfl, rfl, rfl, (models_trace s l _).mpr hmods, Or.inr ⟨_, rfl⟩,
          fun h => absurd h hroom⟩
      | false =>
        have hp : heap_push_back env s v false
            = .ok { s with
                    heap_ := ⟨l ++ [v], l.length + 1 + env.slack (l.length + 1), env.fresh⟩
                    size_ := s.size_ + 1
                    trace := s.trace ++
                      [Event.heap_alloc (l.length + 1 + env.slack (l.length + 1)),
                       Event.heap_free] } := by
          simp [heap_push_back, StdVector.push_back, he, hroom, ha, StdVector.release_events, hc]
        rw [hp]
        refine ⟨?_, by simp, by simp, by simp⟩
        intro s' h
        simp only [Res.ok.injEq] at h
        subst h
        refine ⟨rfl, ?_, Or.inr ⟨hroom', rfl⟩⟩
        refine ⟨by simp [hsz], Or.inr ⟨by simp, rfl, ?_, ?_, hst⟩⟩
        · simp; omega
        · simp
    · have ha' : env.allocOk (l.length + 1 + env.slack (l.length + 1)) = false := by
        simpa using ha
      have hp : heap_push_back env s v ct
          = .thrown .bad_alloc { s with trace := s.trace ++ [] } := by
        simp [heap_push_back, StdVector.push_back, he, hroom, ha']
      rw [hp]
      refine ⟨by simp, ?_, by simp, ?_⟩
      · intro e s' h
        simp only [Res.thrown.injEq] at h
        obtain ⟨_, rfl⟩ := h
        exact ⟨rfl, rfl, rfl, (models_trace s l _).mpr hmods, Or.inl (by simp),
          fun h => absurd h hroom⟩
      · intro _ h
        rcases h with h | h
        · omega
        · exact absurd h ha

theorem set_end (l : List T) (k : Nat) (y : T) (hk : 0 < k) :
    (l.map some ++ List.replicate k none).set l.length (some y)
      = (l ++ [y]).map some ++ List.replicate (k - 1) none := by
  obtain ⟨k', rfl⟩ : ∃ k', k = k' + 1 := ⟨k - 1, by omega⟩
  have : (l.map some).length = l.length := by simp
  rw [List.set_append]
  simp [List.replicate_succ]

theorem push_back_with_spec (ct : Bool) (env : Env T) (s : SmallVector T N) (l : List T) (v : T)
    (hm : Models s l) :
    (∀ s', push_back_with ct env s v = .ok s' →
        ct = false ∧ Models s' (l ++ [v]) ∧
        ((s.heap_.cap = 0 ∧ l.length < N ∧
            s' = { s with
                   inline_storage_ := s.inline_storage_.set s.size_ (some v)
                   size_ := s.size_ + 1
                   trace := s.trace ++ [Event.construct_inline s.size_] }) ∨
         (s.heap_.cap = 0 ∧ l.length = N ∧ env.allocOk (switch_capacity env N) = true ∧
            s' = ⟨N + 1, ⟨l ++ [v], switch_capacity env N, env.fresh⟩, List.replicate N none,
                  s.trace ++ switch_events env N⟩) ∨
         (0 < s.heap_.cap ∧ l.length < s.heap_.cap ∧
            s' = { s with heap_ := ⟨l ++ [v], s.heap_.cap, s.heap_.buf⟩, size_ := s.size_ + 1 }) ∨
         (0 < s.heap_.cap ∧ s.heap_.cap ≤ l.length ∧
            s' = { s with
                   heap_ := ⟨l ++ [v], l.length + 1 + env.slack (l.length + 1), env.fresh⟩
                   size_ := s.size_ + 1
                   trace := s.trace ++
                     [Event.heap_alloc (l.length + 1 + env.slack (l.length + 1)),
                      Event.heap_free] }))) ∧
    (∀ e s', push_back_with ct env s v = .thrown e s' →
        s'.size_ = s.size_ ∧ (∃ l' : List T, l'.length = l.length ∧ Models s' l') ∧
        ((s.heap_.cap = 0 ∧ l.length < N ∧ s' = s) ∨
         (s.heap_.cap = 0 ∧ l.length = N ∧ s'.heap_ = s.heap_) ∨
         (s.heap_.cap = 0 ∧ l.length = N ∧
            s' = ⟨N, ⟨l, switch_capacity env N, env.fresh⟩, List.replicate N none,
                  s.trace ++ switch_events env N⟩) ∨
         (0 < s.heap_.cap ∧ s'.heap_ = s.heap_))) ∧
    push_back_with ct env s v ≠ .undefined ∧
    (ct = false → (∀ n, env.allocOk n = true) → (∀ x, env.moveThrows x = false) →
      ∃ s', push_back_with ct env s v = .ok s') := by
  by_cases hc : s.heap_.cap = 0
  · have hu : s.using_heap = false := (using_heap_eq_false s).mpr hc
    obtain ⟨hsz, hmod | hmod⟩ := hm
    swap
    · omega
    obtain ⟨_, he, hle, hst⟩ := hmod
    have hmods : Models s l := ⟨hsz, Or.inl ⟨hc, he, hle, hst⟩⟩
    by_cases hlt : l.length < N
    · cases ct with
      | true =>
        have hp : push_back_with true env s v = .thrown .element s := by
          simp [push_back_with, hu, hsz, hlt]
        rw [hp]
        refine ⟨by simp, ?_, by simp, by simp⟩
        intro e s' h
        simp only [Res.thrown.injEq] at h
        obtain ⟨_, rfl⟩ := h
        exact ⟨rfl, ⟨l, rfl, hmods⟩, Or.inl ⟨hc, hlt, rfl⟩⟩
      | false =>
        have hp : push_back_with false env s v
            = .ok { s with
                    inline_storage_ := s.inline_storage_.set s.size_ (some v)
                    size_ := s.size_ + 1
                    trace := s.trace ++ [Event.construct_inline s.size_] } := by
          simp [push_back_with, hu, hsz, hlt]
        rw [hp]
        refine ⟨?_, by simp, by simp, by simp⟩
        intro s' h
        simp only [Res.ok.injEq] at h
        subst h
        refine ⟨rfl, ?_, Or.inl ⟨hc, hlt, rfl⟩⟩
        refine ⟨by simp [hsz], Or.inl ⟨hc, he, by simp; omega, ?_⟩⟩
        show s.inline_storage_.set s.size_ (some v) = _
        have hk : N - l.length - 1 = N - (l ++ [v]).length := by simp; omega
        rw [hst, hsz, set_end l _ v (by omega), hk]
    · have hN : l.length = N := by omega
      obtain ⟨h1, h2, h3, h4⟩ := switch_to_heap_spec env s l hmods hc hN
      have hnlt : ¬ s.size_ < N := by omega
      cases hsw : switch_to_heap env s with
      | undefined => exact absurd hsw h3
      | thrown e s1 =>
        have hp : push_back_with ct env s v = .thrown e s1 := by
          simp [push_back_with, hu, hnlt, hsw]
        rw [hp]
        refine ⟨by simp, ?_, by simp, ?_⟩
        · intro e' s' h
          simp only [Res.thrown.injEq] at h
          obtain ⟨_, rfl⟩ := h
          obtain ⟨a, b, c⟩ := h2 e s1 hsw
          exact ⟨a, c, Or.inr (Or.inl ⟨hc, hN, b⟩)⟩
        · intro _ hall hmv
          obtain ⟨s', hs'⟩ := h4 (hall _) (fun x _ => hmv x)
          rw [hsw] at hs'
          cases hs'
      | ok s1 =>
        have hp : push_back_with ct env s v = heap_push_back env s1 v ct := by
          simp [push_back_with, hu, hnlt, hsw]
        rw [hp]
        obtain ⟨hal, hs1⟩ := h1 s1 hsw
        have hm1 : Models s1 l := by
          subst hs1
          refine ⟨hN.symm, Or.inr ⟨?_, rfl, by omega, ?_, rfl⟩⟩
          · simp [switch_capacity]
          · simp [switch_capacity]; omega
        have hc1 : 0 < s1.heap_.cap := by subst hs1; simp [switch_capacity]
        have hroom : l.length < s1.heap_.cap := by subst hs1; simp [switch_capacity]; omega
        obtain ⟨g1, g2, g3, g4⟩ := heap_push_back_spec env s1 l v ct hm1 hc1
        refine ⟨?_, ?_, g3, ?_⟩
        · intro s' h
          obtain ⟨a, b, c⟩ := g1 s' h
          refine ⟨a, b, Or.inr (Or.inl ⟨hc, hN, hal, ?_⟩)⟩
          rcases c with ⟨_, c⟩ | ⟨c, _⟩
          · rw [c, hs1]
          · omega
        · intro e s' h
          obtain ⟨a, _, _, d, _, f⟩ := g2 e s' h
          have hs1N : s1.size_ = N := by rw [hs1]
          refine ⟨by omega, ⟨l, rfl, d⟩, Or.inr (Or.inr (Or.inl ⟨hc, hN, ?_⟩))⟩
          rw [(f hroom).1, hs1]
        · intro hct _ _
          exact g4 hct (Or.inl hroom)
  · have hc' : 0 < s.heap_.cap := by omega
    have hu : s.using_heap = true := (using_heap_eq_true s).mpr hc'
    have hp : push_back_with ct env s v = heap_push_back env s v ct := by
      simp [push_back_with, hu]
    rw [hp]
    have hl : l.length = s.size_ := hm.1.symm
    obtain ⟨g1, g2, g3, g4⟩ := heap_push_back_spec env s l v ct hm hc'
    refine ⟨?_, ?_, g3, ?_⟩
    · intro s' h
      obtain ⟨a, b, c⟩ := g1 s' h
      refine ⟨a, b, Or.inr (Or.inr ?_)⟩
      rcases c with ⟨c1, c2⟩ | ⟨c1, c2⟩
      · exact Or.inl ⟨hc', c1, c2⟩
      · exact Or.inr ⟨hc', c1, c2⟩
    · intro e s' h
      obtain ⟨a, b, _, d, _⟩ := g2 e s' h
      exact ⟨a, ⟨l, rfl, d⟩, Or.inr (Or.inr (Or.inr ⟨hc', b⟩))⟩
    · intro hct hall _
      exact g4 hct (Or.inr (hall _))

theorem store_spec (s : SmallVector T N) (l : List T) (p : Ptr) (x : T) (s' : SmallVector T N)
    (hm : Models s l) (h : s.store p x = some s') :
    ∃ i : Nat, p.off = (i : Int) ∧ i < l.length ∧ Models s' (l.set i x) ∧
      s'.trace = s.trace ∧ s'.size_ = s.size_ ∧ s'.heap_.cap = s.heap_.cap := by
  obtain ⟨blk, off⟩ := p
  by_cases hoff : off < 0
  · simp [store, hoff] at h
  obtain ⟨i, rfl⟩ : ∃ i : Nat, off = (i : Int) := ⟨off.toNat, by omega⟩
  refine ⟨i, rfl, ?_⟩
  obtain ⟨hsz, hmod | hmod⟩ := hm
  · obtain ⟨hc, he, hle, hst⟩ := hmod
    cases blk with
    | null => simp [store] at h
    | heap a => simp [store, hc] at h
    | inline_storage =>
      simp only [store, hoff, if_false, Int.toNat_ofNat] at h
      rw [hst, getD_map_some_append] at h
      cases hli : l[i]? with
      | none => simp [hli] at h
      | some y =>
        have hi : i < l.length := by
          by_contra hcon
          rw [List.getElem?_eq_none (by omega)] at hli
          cases hli
        simp only [hli, Option.some.injEq] at h
        subst h
        refine ⟨hi, ⟨by simp [hsz], Or.inl ⟨hc, he, by simpa using hle, ?_⟩⟩, rfl, rfl, rfl⟩
        show (List.map some l ++ List.replicate (N - l.length) none).set i (some x) = _
        rw [List.set_append]
        simp [hi, List.map_set]
  · obtain ⟨hc, he, hN, hcap, hst⟩ := hmod
    cases blk with
    | null => simp [store] at h
    | inline_storage =>
      simp only [store, hoff, if_false, Int.toNat_ofNat] at h
      rw [hst, List.getD_eq_getElem?_getD] at h
      have : ((List.replicate N (none : Option T))[i]?).getD none = none := by
        rw [List.getElem?_replicate]; split <;> rfl
      rw [this] at h
      simp at h
    | heap a =>
      simp only [store, hoff, if_false, Int.toNat_ofNat, StdVector.assign] at h
      by_cases hcond : a = s.heap_.buf ∧ 0 < s.heap_.cap
      · rw [if_pos hcond] at h
        by_cases hi : i < s.heap_.elems.length
        · rw [if_pos hi] at h
          simp only [Option.map_some', Option.some.injEq] at h
          subst h
          rw [he] at hi
          refine ⟨hi, ⟨by simp [hsz], Or.inr ⟨hc, ?_, by simpa using hN, by simpa using hcap, hst⟩⟩,
            rfl, rfl, rfl⟩
          simp [he]
        · rw [if_neg hi] at h
          simp at h
      · rw [if_neg hcond] at h
        cases h

theorem set_spec (s : SmallVector T N) (l : List T) (i : Nat) (x : T) (hm : Models s l) :
    (∀ s', s.set i x = some s' →
      i < l.length ∧ Models s' (l.set i x) ∧ s'.trace = s.trace ∧ s'.size_ = s.size_ ∧
        s'.heap_.cap = s.heap_.cap) ∧
    (i < l.length → ∃ s', s.set i x = some s') := by
  by_cases hu : s.using_heap = true
  · have hc : 0 < s.heap_.cap := (using_heap_eq_true s).mp hu
    obtain ⟨hsz, hmod | hmod⟩ := hm
    · omega
    obtain ⟨_, he, hN, hcap, hst⟩ := hmod
    constructor
    · intro s' h
      simp only [set, hu, if_true, StdVector.assign] at h
      by_cases hi : i < s.heap_.elems.length
      · rw [if_pos hi] at h
        simp only [Option.map_some', Option.some.injEq] at h
        subst h
        rw [he] at hi
        refine ⟨hi, ⟨by simp [hsz], Or.inr ⟨hc, ?_, by simpa using hN, by simpa using hcap, hst⟩⟩,
          rfl, rfl, rfl⟩
        simp [he]
      · rw [if_neg hi] at h
        simp at h
    · intro hi
      simp [set, hu, StdVector.assign, he, hi]
  · have hu' : s.using_heap = false := by simpa using hu
    constructor
    · intro s' h
      simp only [set, hu', Bool.false_eq_true, if_false] at h
      obtain ⟨j, hj, hlt, hmod, ht, hs, hcp⟩ := store_spec s l _ x s' hm h
      have : i = j := by simpa [inline_ptr] using hj
      subst this
      exact ⟨hlt, hmod, ht, hs, hcp⟩
    · intro hi
      obtain ⟨hsz, hmod | hmod⟩ := hm
      · obtain ⟨hc, he, hle, hst⟩ := hmod
        have hnn : ¬ ((i : Int) < 0) := by omega
        simp only [set, hu', Bool.false_eq_true, if_false, store, inline_ptr, hnn,
          Int.toNat_ofNat]
        rw [hst, getD_map_some_append, List.getElem?_eq_getElem hi]
        exact ⟨_, rfl⟩
      · have := (using_heap_eq_false s).mp hu'
        omega

theorem step_models {s s' : SmallVector T N} {l : List T} (hm : Models s l) (h : Step s s') :
    ∃ l', Models s' l' := by
  cases h with
  | push_back_ok env _ v _ h =>
    rw [push_back_eq_with] at h
    exact ⟨_, ((push_back_with_spec _ env s l v hm).1 s' h).2.1⟩
  | push_back_thrown env _ v e _ h =>
    rw [push_back_eq_with] at h
    obtain ⟨_, ⟨l', _, hl'⟩, _⟩ := (push_back_with_spec _ env s l v hm).2.1 e s' h
    exact ⟨l', hl'⟩
  | push_back_move_ok env _ v _ h =>
    rw [push_back_move_eq_with] at h
    exact ⟨_, ((push_back_with_spec _ env s l v hm).1 s' h).2.1⟩
  | push_back_move_thrown env _ v e _ h =>
    rw [push_back_move_eq_with] at h
    obtain ⟨_, ⟨l', _, hl'⟩, _⟩ := (push_back_with_spec _ env s l v hm).2.1 e s' h
    exact ⟨l', hl'⟩
  | set _ i x _ h => exact ⟨_, ((set_spec s l i x hm).1 s' h).2.1⟩
  | assign _ it x _ h =>
    obtain ⟨i, _, _, hmod, _⟩ := store_spec s l it.p x s' hm h
    exact ⟨_, hmod⟩
  | read => exact ⟨l, hm⟩

theorem reachable_models {s : SmallVector T N} (h : Reachable s) : ∃ l, Models s l := by
  induction h with
  | new => exact ⟨[], models_new⟩
  | step _ hstep ih =>
    obtain ⟨l, hl⟩ := ih
    exact step_models hl hstep

theorem cursor_range {s : SmallVector T N} {l : List T} (hm : Models s l) :
    ∃ b : Block, s.begin = ⟨⟨b, 0⟩⟩ ∧ s.end_ = ⟨⟨b, (l.length : Int)⟩⟩ ∧
      ∀ k : Nat, s.load ⟨b, (k : Int)⟩ = l[k]? := by
  obtain ⟨hsz, hmod | hmod⟩ := hm
  · obtain ⟨hc, he, hle, hst⟩ := hmod
    have hu : s.using_heap = false := (using_heap_eq_false s).mpr hc
    refine ⟨.inline_storage, by simp [begin, hu, inline_ptr], by simp [end_, hu, inline_ptr, hsz], ?_⟩
    intro k
    have := load_inline_ptr s k
    rw [hst, getD_map_some_append] at this
    simpa [inline_ptr] using this
  · obtain ⟨hc, he, hN, hcap, hst⟩ := hmod
    have hu : s.using_heap = true := (using_heap_eq_true s).mpr hc
    refine ⟨.heap s.heap_.buf, by simp [begin, hu, StdVector.data, hc],
      by simp [end_, hu, StdVector.data, hc, Ptr.add, hsz], ?_⟩
    intro k
    have hnn : ¬ ((k : Int) < 0) := by omega
    simp [load, hnn, hc, he]

theorem walk_spec (s : SmallVector T N) (l : List T) (b : Block)
    (hload : ∀ k : Nat, s.load ⟨b, (k : Int)⟩ = l[k]?) :
    ∀ (fuel k : Nat), k ≤ l.length → l.length - k < fuel →
      walk s fuel ⟨⟨b, (k : Int)⟩⟩ ⟨⟨b, (l.length : Int)⟩⟩ = some (l.drop k) := by
  intro fuel
  induction fuel with
  | zero => intro k _ h; omega
  | succ fuel ih =>
    intro k hk hf
    by_cases hkl : k = l.length
    · subst hkl
      simp [walk, iterator.ne]
    · have hlt : k < l.length := by omega
      have hne : iterator.ne ⟨⟨b, (k : Int)⟩⟩ ⟨⟨b, (l.length : Int)⟩⟩ = true := by
        simp [iterator.ne]
        omega
      have hd : iterator.deref s ⟨⟨b, (k : Int)⟩⟩ = some l[k] := by
        simp [iterator.deref, hload, List.getElem?_eq_getElem hlt]
      have hinc : iterator.incr ⟨⟨b, (k : Int)⟩⟩ = ⟨⟨b, ((k + 1 : Nat) : Int)⟩⟩ := by
        simp [iterator.incr, Ptr.add]
      rw [walk, if_pos hne, hd]
      simp only
      rw [hinc, ih (k + 1) (by omega) (by omega)]
      rw [List.drop_eq_getElem_cons hlt]
      rfl

theorem range_for_spec {s : SmallVector T N} {l : List T} (hm : Models s l) (fuel : Nat)
    (hf : l.length < fuel) : range_for fuel s = some l := by
  obtain ⟨b, hb, he, hload⟩ := cursor_range hm
  have := walk_spec s l b hload fuel 0 (by omega) (by omega)
  rw [range_for, hb, he]
  simpa using this

theorem count_install_switch_events (env : Env T) (n : Nat) :
    (switch_events env n).count Event.install_heap = 1 := by
  have h1 : ((List.range n).map Event.move_from_inline).count Event.install_heap = 0 :=
    List.count_eq_zero.mpr (by simp)
  have h2 : ((List.range n).map Event.destroy_inline_elem).count Event.install_heap = 0 :=
    List.count_eq_zero.mpr (by simp)
  simp [switch_events, List.count_cons, List.count_append, h1, h2]

theorem appended_only_new : AppendedOnly (new : SmallVector T N) [] := by
  refine ⟨models_new, ?_, ?_, ?_⟩ <;> simp [new, StdVector.empty, switchovers, heap_allocations]

theorem appended_only_step (ct : Bool) (env : Env T) (s s' : SmallVector T N) (l : List T) (v : T)
    (ha : AppendedOnly s l) (h : push_back_with ct env s v = .ok s') :
    AppendedOnly s' (l ++ [v]) ∧
      switchovers s' = switchovers s + (if l.length = N then 1 else 0) := by
  obtain ⟨hm, hmode, hsw, hal⟩ := ha
  obtain ⟨_, hm', hcase⟩ := (push_back_with_spec ct env s l v hm).1 s' h
  have hlen : (l ++ [v]).length = l.length + 1 := by simp
  rcases hcase with ⟨hc, hlt, rfl⟩ | ⟨hc, hN, _, rfl⟩ | ⟨hc, hroom, rfl⟩ | ⟨hc, hroom, rfl⟩
  · have h1 : l.length ≤ N := by omega
    have h2 : l.length + 1 ≤ N := by omega
    have h3 : l.length ≠ N := by omega
    refine ⟨⟨hm', ?_, ?_, ?_⟩, ?_⟩
    · simp [hc, hlen, h2]
    · simp [switchovers] at hsw ⊢
      simp [hsw, h1, h2]
    · intro _
      have := hal h1
      unfold heap_allocations at this ⊢
      rw [List.countP_append, this]
      rfl
    · simp [switchovers, h3]
  · have h1 : l.length ≤ N := by omega
    have h2 : ¬ l.length + 1 ≤ N := by omega
    refine ⟨⟨hm', ?_, ?_, ?_⟩, ?_⟩
    · simp [hlen, h2, switch_capacity]
    · simp [switchovers] at hsw ⊢
      simp [hsw, h1, h2, count_install_switch_events]
    · intro h; rw [hlen] at h; omega
    · simp [switchovers, hN, count_install_switch_events]
  · have h1 : ¬ l.length ≤ N := fun h => by have := hmode.mpr h; omega
    have h2 : ¬ l.length + 1 ≤ N := by omega
    have h3 : l.length ≠ N := by omega
    refine ⟨⟨hm', ?_, ?_, ?_⟩, ?_⟩
    · simp [hlen, h2]; omega
    · simp [switchovers] at hsw ⊢
      simp [hsw, h1, h2]
    · intro h; rw [hlen] at h; omega
    · simp [switchovers, h3]
  · have h1 : ¬ l.length ≤ N := fun h => by have := hmode.mpr h; omega
    have h2 : ¬ l.length + 1 ≤ N := by omega
    have h3 : l.length ≠ N := by omega
    refine ⟨⟨hm', ?_, ?_, ?_⟩, ?_⟩
    · simp [hlen, h2]
    · simp [switchovers] at hsw ⊢
      simp [hsw, h1, h2, List.count_cons]
    · intro h; rw [hlen] at h; omega
    · simp [switchovers, h3, List.count_cons]

theorem push_all_spec :
    ∀ (xs : List (Env T × T)) (s s' : SmallVector T N) (l : List T),
      AppendedOnly s l → push_all s xs = .ok s' → AppendedOnly s' (l ++ xs.map Prod.snd) := by
  intro xs
  induction xs with
  | nil =>
    intro s s' l ha h
    simp only [push_all, Res.ok.injEq] at h
    subst h
    simpa using ha
  | cons x rest ih =>
    intro s s' l ha h
    obtain ⟨env, v⟩ := x
    simp only [push_all] at h
    cases hp : push_back env s v with
    | ok s1 =>
      rw [hp] at h
      rw [push_back_eq_with] at hp
      have := ih s1 s' (l ++ [v]) (appended_only_step _ env s s1 l v ha hp).1 h
      simpa using this
    | thrown e s1 => rw [hp] at h; cases h
    | undefined => rw [hp] at h; cases h

theorem push_all_snoc :
    ∀ (xs : List (Env T × T)) (s : SmallVector T N) (env : Env T) (v : T),
      push_all s (xs ++ [(env, v)]) =
        match push_all s xs with
        | .ok s1 => push_back env s1 v
        | r => r := by
  intro xs
  induction xs with
  | nil =>
    intro s env v
    simp only [List.nil_append, push_all]
    cases push_back env s v <;> rfl
  | cons x rest ih =>
    intro s env v
    obtain ⟨env0, v0⟩ := x
    simp only [List.cons_append, push_all]
    cases hp : push_back env0 s v0 with
    | ok s1 => simpa using ih s1 env v
    | thrown e s1 => rfl
    | undefined => rfl

theorem push_all_reachable :
    ∀ (xs : List (Env T × T)) (s s' : SmallVector T N),
      Reachable s → push_all s xs = .ok s' → Reachable s' := by
  intro xs
  induction xs with
  | nil =>
    intro s s' hr h
    simp only [push_all, Res.ok.injEq] at h
    subst h
    exact hr
  | cons x rest ih =>
    intro s s' hr h
    obtain ⟨env, v⟩ := x
    simp only [push_all] at h
    cases hp : push_back env s v with
    | ok s1 =>
      rw [hp] at h
      exact ih s1 s' (Reachable.step hr (Step.push_back_ok env s v s1 hp)) h
    | thrown e s1 => rw [hp] at h; cases h
    | undefined => rw [hp] at h; cases h

theorem push_values_ok :
    ∀ (vs : List T) (s : SmallVector T N) (l : List T), Models s l →
      ∃ s', push_values s vs = .ok s' := by
  intro vs
  induction vs with
  | nil => intro s l _; exact ⟨s, rfl⟩
  | cons v rest ih =>
    intro s l hm
    obtain ⟨h1, _, _, h4⟩ := push_back_with_spec ((Env.benign T).copyThrows v) (Env.benign T) s l v hm
    obtain ⟨s1, hs1⟩ := h4 rfl (fun _ => rfl) (fun _ => rfl)
    obtain ⟨s2, hs2⟩ := ih s1 (l ++ [v]) (h1 s1 hs1).2.1
    refine ⟨s2, ?_⟩
    rw [← push_back_eq_with] at hs1
    simp only [push_values, List.map_cons, push_all, hs1]
    exact hs2

end SmallVector

open SmallVector

theorem push_each_inline :
    ∀ (T : Type) (N : Nat) (xs : List (Env T × T)) (s : SmallVector T N) (l : List T),
      Models s l → s.heap_.cap = 0 → heap_allocations s = 0 → l.length + xs.length ≤ N →
      ∃ s' : SmallVector T N, push_each s xs = some s' ∧ s'.heap_.cap = 0 ∧
        heap_allocations s' = 0 := by
  intro T N xs
  induction xs with
  | nil => intro s l _ hc ha _; exact ⟨s, rfl, hc, ha⟩
  | cons x rest ih =>
    intro s l hm hc ha hlen
    obtain ⟨env, v⟩ := x
    have hlt : l.length < N := by simp at hlen; omega
    obtain ⟨h1, h2, h3, _⟩ := push_back_with_spec (env.copyThrows v) env s l v hm
    rw [← push_back_eq_with] at h1 h2 h3
    cases hp : push_back env s v with
    | undefined => exact absurd hp h3
    | ok s1 =>
      obtain ⟨_, hm1, hcase⟩ := h1 s1 hp
      rcases hcase with ⟨_, _, hs1⟩ | ⟨_, hN, _⟩ | ⟨hc', _⟩ | ⟨hc', _⟩
      · have hc1 : s1.heap_.cap = 0 := by rw [hs1]; exact hc
        have ha1 : heap_allocations s1 = 0 := by
          rw [hs1]
          unfold heap_allocations at ha ⊢
          show List.countP _ (s.trace ++ _) = 0
          rw [List.countP_append, ha]
          rfl
        obtain ⟨s', e1, e2, e3⟩ := ih s1 (l ++ [v]) hm1 hc1 ha1 (by simp at hlen ⊢; omega)
        exact ⟨s', by simp only [push_each, hp]; exact e1, e2, e3⟩
      · omega
      · omega
      · omega
    | thrown e s1 =>
      obtain ⟨_, _, hcase⟩ := h2 e s1 hp
      rcases hcase with ⟨_, _, hs1⟩ | ⟨_, hN, _⟩ | ⟨_, hN, _⟩ | ⟨hc', _⟩
      · subst hs1
        obtain ⟨s', e1, e2, e3⟩ := ih s1 l hm hc ha (by simp at hlen; omega)
        exact ⟨s', by simp only [push_each, hp]; exact e1, e2, e3⟩
      · omega
      · omega
      · omega

theorem run_ops_spec :
    ∀ (T : Type) (N : Nat) (ops : List (Op T)) (s s' : SmallVector T N) (l : List T),
      Models s l → run_ops s ops = some s' →
      ∃ l', Models s' l' ∧ ∀ i, l'[i]? = last_written i l.length (l[i]?) ops := by
  intro T N ops
  induction ops with
  | nil =>
    intro s s' l hm h
    simp only [run_ops, Option.some.injEq] at h
    subst h
    exact ⟨l, hm, fun i => rfl⟩
  | cons op rest ih =>
    intro s s' l hm h
    simp only [run_ops] at h
    cases hop : run_op s op with
    | none => rw [hop] at h; cases h
    | some s1 =>
      rw [hop] at h
      have happ : ∀ (v : T) (i : Nat),
          (l ++ [v])[i]? = if l.length = i then some v else l[i]? := by
        intro v i
        by_cases hi : i < l.length
        · have : l.length ≠ i := by omega
          simp [List.getElem?_append_left hi, this]
        · by_cases hi2 : l.length = i
          · subst hi2; simp
          · rw [List.getElem?_eq_none (by simp; omega), List.getElem?_eq_none (by omega)]
            simp [hi2]
      cases op with
      | append env v =>
        simp only [run_op] at hop
        cases hp : push_back env s v with
        | ok s2 =>
          rw [hp] at hop
          simp only [Option.some.injEq] at hop
          subst hop
          rw [push_back_eq_with] at hp
          obtain ⟨l', hm', hl'⟩ := ih s2 s' (l ++ [v])
            ((push_back_with_spec _ env s l v hm).1 s2 hp).2.1 h
          refine ⟨l', hm', fun i => ?_⟩
          rw [hl' i, happ v i]
          simp [last_written]
        | thrown e s2 => rw [hp] at hop; cases hop
        | undefined => rw [hp] at hop; cases hop
      | append_move env v =>
        simp only [run_op] at hop
        cases hp : push_back_move env s v with
        | ok s2 =>
          rw [hp] at hop
          simp only [Option.some.injEq] at hop
          subst hop
          rw [push_back_move_eq_with] at hp
          obtain ⟨l', hm', hl'⟩ := ih s2 s' (l ++ [v])
            ((push_back_with_spec _ env s l v hm).1 s2 hp).2.1 h
          refine ⟨l', hm', fun i => ?_⟩
          rw [hl' i, happ v i]
          simp [last_written]
        | thrown e s2 => rw [hp] at hop; cases hop
        | undefined => rw [hp] at hop; cases hop
      | set j x =>
        simp only [run_op] at hop
        obtain ⟨hj, hm1, _⟩ := (set_spec s l j x hm).1 s1 hop
        obtain ⟨l', hm', hl'⟩ := ih s1 s' (l.set j x) hm1 h
        refine ⟨l', hm', fun i => ?_⟩
        rw [hl' i]
        have : (l.set j x)[i]? = if j = i then some x else l[i]? := by
          rw [List.getElem?_set]
          by_cases hji : j = i
          · subst hji; simp [hj]
          · simp [hji]
        simp [last_written, this]

/-! ## The claims -/

theorem push_values_reachable {T : Type} {N : Nat} (vs : List T) (s : SmallVector T N)
    (h : push_values new vs = .ok s) : Reachable s :=
  push_all_reachable _ new s Reachable.new h

theorem models_mode {T : Type} {N : Nat} {s : SmallVector T N} {l : List T} (hm : Models s l) :
    (s.using_heap = false →
      s.heap_.cap = 0 ∧ s.heap_.elems = [] ∧ l.length ≤ N ∧
        s.inline_storage_ = l.map some ++ List.replicate (N - l.length) none) ∧
    (s.using_heap = true →
      0 < s.heap_.cap ∧ s.heap_.elems = l ∧ N ≤ l.length ∧ l.length ≤ s.heap_.cap ∧
        s.inline_storage_ = List.replicate N none) := by
  obtain ⟨_, h | h⟩ := hm
  · refine ⟨fun _ => h, fun hu => ?_⟩
    have := (using_heap_eq_true s).mp hu
    omega
  · refine ⟨fun hu => ?_, fun _ => h⟩
    have := (using_heap_eq_false s).mp hu
    omega

/-- C1: in every reachable state (inline with room, inline and full, or
heap), an append of `v`, by copy or by move, that returns normally makes
`get` at the old length equal to `v` and leaves `get i` as it was for every
`i` below the old length. -/
theorem push_back_appends {T : Type} {N : Nat} {s s' : SmallVector T N} (hr : Reachable s)
    (env : Env T) (v : T)
    (h : push_back env s v = .ok s' ∨ push_back_move env s v = .ok s') :
    s'.get s.size = some v ∧ ∀ i, i < s.size → s'.get i = s.get i := by
  obtain ⟨l, hm⟩ := reachable_models hr
  have key : ∀ ct, push_back_with ct env s v = .ok s' →
      s'.get s.size = some v ∧ ∀ i, i < s.size → s'.get i = s.get i := by
    intro ct hp
    have hm' := ((push_back_with_spec ct env s l v hm).1 s' hp).2.1
    have hsz : s.size = l.length := hm.1
    constructor
    · rw [get_of_models hm', hsz]
      simp
    · intro i hi
      rw [get_of_models hm', get_of_models hm, List.getElem?_append_left (by omega)]
  rcases h with h | h
  · exact key _ (by rw [← push_back_eq_with]; exact h)
  · exact key _ (by rw [← push_back_move_eq_with]; exact h)

theorem push_back_appends_witness :
    Reachable full_inline_example ∧
    push_back (Env.benign Nat) full_inline_example 7 = .ok switched_example ∧
    (switched_example.get full_inline_example.size = some 7 ∧
      ∀ i, i < full_inline_example.size → switched_example.get i = full_inline_example.get i) :=
  ⟨push_values_reachable [5, 6] full_inline_example rfl, rfl,
    push_back_appends (push_values_reachable [5, 6] full_inline_example rfl)
      (Env.benign Nat) 7 (Or.inl rfl)⟩

/-- C2: after appends of `v_0 .. v_(K-1)` to a new container that all returned
normally, the loop from `begin()` to `end()` by pre-increment and dereference
terminates and yields exactly these values in append order, in inline and in
heap mode alike; and with nothing failing the appends do return normally. -/
theorem range_for_yields_appended (T : Type) (N : Nat) :
    (∀ (xs : List (Env T × T)) (s : SmallVector T N), push_all new xs = .ok s →
      ∀ fuel, xs.length < fuel → range_for fuel s = some (xs.map Prod.snd)) ∧
    (∀ vs : List T, ∃ s : SmallVector T N,
      push_values new vs = .ok s ∧ range_for (vs.length + 1) s = some vs) := by
  have h1 : ∀ (xs : List (Env T × T)) (s : SmallVector T N), push_all new xs = .ok s →
      ∀ fuel, xs.length < fuel → range_for fuel s = some (xs.map Prod.snd) := by
    intro xs s h fuel hf
    have hm := (push_all_spec xs new s [] appended_only_new h).1
    simp only [List.nil_append] at hm
    exact range_for_spec hm fuel (by simpa using hf)
  refine ⟨h1, fun vs => ?_⟩
  obtain ⟨s, hs⟩ := push_values_ok vs (new : SmallVector T N) [] models_new
  refine ⟨s, hs, ?_⟩
  have := h1 _ s hs (vs.length + 1) (by simp)
  simpa [List.map_map, Function.comp_def] using this

theorem range_for_yields_appended_witness :
    push_values new (List.range 10) = .ok main_example ∧
    main_example.using_heap = true ∧
    range_for 11 main_example = some [0, 1, 2, 3, 4, 5, 6, 7, 8, 9] :=
  ⟨rfl, rfl,
    (range_for_yields_appended Nat 4).1 ((List.range 10).map (fun v => (Env.benign Nat, v)))
      main_example rfl 11 (by decide)⟩

/-- C3: after any sequence of appends and `set` calls on a new container that
all returned normally, `get i` is the value most recently written at `i` (by
the append that created index `i` or by the latest `set` at `i`), in inline
and in heap mode alike; and a switchover changes neither the length nor the
value `get` returns at any index. -/
theorem get_returns_last_written (T : Type) (N : Nat) :
    (∀ (ops : List (Op T)) (s : SmallVector T N), run_ops new ops = some s →
      ∀ i, i < s.size → s.get i = last_written i 0 none ops) ∧
    (∀ (env : Env T) (s s' : SmallVector T N), Reachable s → s.using_heap = false →
      ¬ s.size_ < N → switch_to_heap env s = .ok s' →
      s'.using_heap = true ∧ s'.size = s.size ∧ ∀ i, s'.get i = s.get i) := by
  constructor
  · intro ops s h i _
    obtain ⟨l', hm', hl'⟩ := run_ops_spec T N ops new s [] models_new h
    rw [get_of_models hm', hl' i]
    rfl
  · intro env s s' hr hu hfull h
    obtain ⟨l, hm⟩ := reachable_models hr
    obtain ⟨hc, _, hle, _⟩ := (models_mode hm).1 hu
    have hsz : s.size_ = l.length := hm.1
    have hN : l.length = N := by omega
    obtain ⟨_, hs'⟩ := (switch_to_heap_spec env s l hm hc hN).1 s' h
    have hm' : Models s' l := by
      subst hs'
      refine ⟨hN.symm, Or.inr ⟨?_, rfl, by omega, ?_, rfl⟩⟩
      · simp [switch_capacity]
      · simp [switch_capacity]; omega
    refine ⟨?_, ?_, fun i => by rw [get_of_models hm', get_of_models hm]⟩
    · subst hs'; simp [using_heap, StdVector.capacity, switch_capacity]
    · subst hs'; simp [size]; omega

theorem get_returns_last_written_witness :
    run_ops new example_ops = some example_ops_result ∧
    example_ops_result.get 0 = last_written 0 0 none example_ops ∧
    last_written 0 0 none example_ops = some 9 :=
  ⟨rfl, (get_returns_last_written Nat 2).1 example_ops example_ops_result rfl 0 (by decide),
    rfl⟩

/-- C4: after `k` appends to a new container that all returned normally
`size()` is `k`; an append that returns normally raises `size()` by exactly
one, the one that switches to the heap included; `empty()` holds exactly when
`size()` is 0; with nothing failing every append returns normally. -/
theorem size_counts_appends (T : Type) (N : Nat) :
    (∀ (xs : List (Env T × T)) (s : SmallVector T N), push_all new xs = .ok s →
      s.size = xs.length) ∧
    (∀ (env : Env T) (v : T) (s s' : SmallVector T N), Reachable s →
      (push_back env s v = .ok s' ∨ push_back_move env s v = .ok s') →
      s'.size = s.size + 1) ∧
    (∀ s : SmallVector T N, s.empty = true ↔ s.size = 0) ∧
    (∀ vs : List T, ∃ s : SmallVector T N,
      push_values new vs = .ok s ∧ s.size = vs.length) := by
  have h1 : ∀ (xs : List (Env T × T)) (s : SmallVector T N), push_all new xs = .ok s →
      s.size = xs.length := by
    intro xs s h
    have hm := (push_all_spec xs new s [] appended_only_new h).1
    simpa using hm.1
  refine ⟨h1, ?_, ?_, ?_⟩
  · intro env v s s' hr h
    obtain ⟨l, hm⟩ := reachable_models hr
    have key : ∀ ct, push_back_with ct env s v = .ok s' → s'.size = s.size + 1 := by
      intro ct hp
      have hm' := ((push_back_with_spec ct env s l v hm).1 s' hp).2.1
      have e1 : s'.size_ = (l ++ [v]).length := hm'.1
      have e2 : s.size_ = l.length := hm.1
      simp only [size, e1, e2, List.length_append, List.length_singleton]
    rcases h with h | h
    · exact key _ (by rw [← push_back_eq_with]; exact h)
    · exact key _ (by rw [← push_back_move_eq_with]; exact h)
  · intro s
    simp [SmallVector.empty, size]
  · intro vs
    obtain ⟨s, hs⟩ := push_values_ok vs (new : SmallVector T N) [] models_new
    refine ⟨s, hs, ?_⟩
    simpa using h1 _ s hs

theorem size_counts_appends_witness :
    push_values new (List.range 10) = .ok main_example ∧ main_example.size = 10 :=
  ⟨rfl, (size_counts_appends Nat 4).1
    ((List.range 10).map (fun v => (Env.benign Nat, v))) main_example rfl⟩

/-- C5: any `k ≤ N` append calls on a new container, whether they return
normally or throw, leave it in inline mode with the heap buffer's capacity
still zero and no heap allocation made; when they all return normally, every
index reads back the value appended there. -/
theorem stays_inline_up_to_capacity (T : Type) (N : Nat) :
    (∀ xs : List (Env T × T), xs.length ≤ N →
      ∃ s : SmallVector T N, push_each new xs = some s ∧ s.using_heap = false ∧
        s.heap_.capacity = 0 ∧ heap_allocations s = 0) ∧
    (∀ (xs : List (Env T × T)) (s : SmallVector T N), xs.length ≤ N →
      push_all new xs = .ok s →
      s.using_heap = false ∧ s.heap_.capacity = 0 ∧ heap_allocations s = 0 ∧
        ∀ i, s.get i = (xs.map Prod.snd)[i]?) := by
  constructor
  · intro xs hlen
    obtain ⟨s, h1, h2, h3⟩ := push_each_inline T N xs new [] models_new rfl rfl
      (by simpa using hlen)
    exact ⟨s, h1, (using_heap_eq_false s).mpr h2, h2, h3⟩
  · intro xs s hlen h
    obtain ⟨hm, hmode, _, hal⟩ := push_all_spec xs new s [] appended_only_new h
    simp only [List.nil_append, List.length_map] at hm hmode hal
    have hc : s.heap_.cap = 0 := hmode.mpr hlen
    exact ⟨(using_heap_eq_false s).mpr hc, hc, hal hlen, fun i => get_of_models hm i⟩

theorem stays_inline_up_to_capacity_witness :
    push_values new [7, 8, 9] = .ok three_example ∧
    (three_example.using_heap = false ∧ three_example.heap_.capacity = 0 ∧
      heap_allocations three_example = 0 ∧
      ∀ i, three_example.get i
        = (([7, 8, 9].map (fun v => (Env.benign Nat, v))).map Prod.snd)[i]?) ∧
    three_example.get 0 = some 7 ∧ three_example.get 1 = some 8 ∧
    three_example.get 2 = some 9 :=
  ⟨rfl,
    (stays_inline_up_to_capacity Nat 4).2 ([7, 8, 9].map (fun v => (Env.benign Nat, v)))
      three_example (by decide) rfl,
    rfl, rfl, rfl⟩

/-- C6: over appends to a new container that all return normally, the
switchover (the installation of the heap buffer) has run no time after at
most `N` appends and exactly once after `N + 1` or more, and the container is
in heap mode exactly from then on: the `(N+1)`-th append runs it, no other
append does. -/
theorem switchover_exactly_once (T : Type) (N : Nat) :
    (∀ (xs : List (Env T × T)) (s : SmallVector T N), push_all new xs = .ok s →
      switchovers s = (if xs.length ≤ N then 0 else 1) ∧
        (s.using_heap = true ↔ N < xs.length)) ∧
    (∀ (xs : List (Env T × T)) (env : Env T) (v : T) (s1 s2 : SmallVector T N),
      push_all new xs = .ok s1 → push_back env s1 v = .ok s2 →
      switchovers s2 = switchovers s1 + (if xs.length = N then 1 else 0)) := by
  constructor
  · intro xs s h
    obtain ⟨_, hmode, hsw, _⟩ := push_all_spec xs new s [] appended_only_new h
    simp only [List.nil_append, List.length_map] at hmode hsw
    refine ⟨hsw, ?_⟩
    rw [using_heap_eq_true]
    constructor
    · intro hc
      by_contra hcon
      have := hmode.mpr (by omega)
      omega
    · intro hlt
      by_contra hcon
      have := hmode.mp (by omega)
      omega
  · intro xs env v s1 s2 h1 h2
    have ha := push_all_spec xs new s1 [] appended_only_new h1
    rw [push_back_eq_with] at h2
    have := (appended_only_step _ env s1 s2 _ v ha h2).2
    simpa using this

theorem switchover_exactly_once_witness :
    push_values new (List.range 10) = .ok main_example ∧
    (switchovers main_example = 1 ∧ (main_example.using_heap = true ↔ 4 < 10)) :=
  ⟨rfl, (switchover_exactly_once Nat 4).1
    ((List.range 10).map (fun v => (Env.benign Nat, v))) main_example rfl⟩

/-- C7: the mode never goes back: from a reachable state in heap mode, every
public operation (an append by copy or by move, returning normally or
throwing, a write through `operator[]` or a cursor, or a read-only call)
leaves the container in heap mode. -/
theorem heap_mode_is_permanent {T : Type} {N : Nat} {s s' : SmallVector T N}
    (hr : Reachable s) (hu : s.using_heap = true) (hs : Step s s') :
    s'.using_heap = true := by
  obtain ⟨l, hm⟩ := reachable_models hr
  have hc : 0 < s.heap_.cap := (using_heap_eq_true s).mp hu
  rw [using_heap_eq_true]
  have hok : ∀ ct env v, push_back_with ct env s v = .ok s' → 0 < s'.heap_.cap := by
    intro ct env v hp
    obtain ⟨_, _, hcase⟩ := (push_back_with_spec ct env s l v hm).1 s' hp
    rcases hcase with ⟨h0, _⟩ | ⟨h0, _⟩ | ⟨_, _, rfl⟩ | ⟨_, _, rfl⟩
    · omega
    · omega
    · exact hc
    · show 0 < l.length + 1 + env.slack (l.length + 1)
      omega
  have hthrown : ∀ ct env v e, push_back_with ct env s v = .thrown e s' →
      0 < s'.heap_.cap := by
    intro ct env v e hp
    obtain ⟨_, _, hcase⟩ := (push_back_with_spec ct env s l v hm).2.1 e s' hp
    rcases hcase with ⟨h0, _⟩ | ⟨h0, _⟩ | ⟨h0, _⟩ | ⟨_, h1⟩
    · omega
    · omega
    · omega
    · rw [h1]; exact hc
  cases hs with
  | push_back_ok env _ v _ h => exact hok _ env v (by rw [← push_back_eq_with]; exact h)
  | push_back_thrown env _ v e _ h =>
    exact hthrown _ env v e (by rw [← push_back_eq_with]; exact h)
  | push_back_move_ok env _ v _ h =>
    exact hok _ env v (by rw [← push_back_move_eq_with]; exact h)
  | push_back_move_thrown env _ v e _ h =>
    exact hthrown _ env v e (by rw [← push_back_move_eq_with]; exact h)
  | set _ i x _ h =>
    obtain ⟨_, _, _, _, hcap⟩ := (set_spec s l i x hm).1 s' h
    omega
  | assign _ it x _ h =>
    obtain ⟨_, _, _, _, _, _, hcap⟩ := store_spec s l it.p x s' hm h
    omega
  | read => exact hc

theorem heap_mode_is_permanent_witness :
    Reachable switched_example ∧ switched_example.using_heap = true ∧
    SmallVector.set switched_example 0 1
      = some ⟨3, ⟨[1, 6, 7], 5, 1⟩, [none, none], switched_example.trace⟩ ∧
    (⟨3, ⟨[1, 6, 7], 5, 1⟩, [none, none], switched_example.trace⟩ :
      SmallVector Nat 2).using_heap = true :=
  ⟨push_values_reachable [5, 6, 7] switched_example rfl, rfl, rfl,
    heap_mode_is_permanent (push_values_reachable [5, 6, 7] switched_example rfl) rfl
      (Step.set switched_example 0 1 _ rfl)⟩

/-- C8: in every state observable between public operations exactly one
storage region holds the live elements.  In inline mode the slots below the
length hold constructed objects, the slots from the length on are raw, and
the heap buffer is empty; in heap mode every inline slot is raw and the heap
buffer holds exactly `size()` elements.  So no operation starts with a heap
buffer installed next to a live inline element, nor in inline mode with a
destroyed slot below the length. -/
theorem one_storage_region {T : Type} {N : Nat} (s : SmallVector T N) (hr : Reachable s) :
    s.inline_storage_.length = N ∧
    (s.using_heap = false →
      s.size ≤ N ∧ s.heap_.elems = [] ∧
      (∀ i, i < s.size → ∃ v, s.inline_storage_[i]? = some (some v)) ∧
      (∀ i, s.size ≤ i → i < N → s.inline_storage_[i]? = some none)) ∧
    (s.using_heap = true →
      s.heap_.elems.length = s.size ∧ ∀ i, i < N → s.inline_storage_[i]? = some none) ∧
    ¬ (s.using_heap = true ∧ ∃ (i : Nat) (v : T), s.inline_storage_[i]? = some (some v)) ∧
    ¬ (s.using_heap = false ∧ ∃ i : Nat, i < s.size ∧ s.inline_storage_[i]? = some none) := by
  obtain ⟨l, hm⟩ := reachable_models hr
  have hsz : s.size = l.length := hm.1
  obtain ⟨hin, hhp⟩ := models_mode hm
  have hslot_lt : s.using_heap = false → ∀ i (hi : i < l.length),
      s.inline_storage_[i]? = some (some l[i]) := by
    intro hu i hi
    obtain ⟨_, _, _, hst⟩ := hin hu
    rw [hst, List.getElem?_append_left (by simpa using hi), List.getElem?_map,
      List.getElem?_eq_getElem hi]
    rfl
  have hraw : s.using_heap = true → ∀ i, i < N → s.inline_storage_[i]? = some none := by
    intro hu i hi
    obtain ⟨_, _, _, _, hst⟩ := hhp hu
    rw [hst, List.getElem?_replicate]
    simp [hi]
  refine ⟨?_, ?_, ?_, ?_, ?_⟩
  · by_cases hu : s.using_heap = true
    · obtain ⟨_, _, _, _, hst⟩ := hhp hu
      simp [hst]
    · obtain ⟨_, _, hle, hst⟩ := hin (by simpa using hu)
      simp [hst]; omega
  · intro hu
    obtain ⟨_, he, hle, hst⟩ := hin hu
    refine ⟨by omega, he, ?_, ?_⟩
    · intro i hi
      have hi' : i < l.length := by omega
      exact ⟨l[i], hslot_lt hu i hi'⟩
    · intro i h1 h2
      have : i - (List.map some l).length < N - l.length := by simp; omega
      rw [hst, List.getElem?_append_right (by simp; omega), List.getElem?_replicate,
        if_pos this]
  · intro hu
    obtain ⟨_, he, _, _, _⟩ := hhp hu
    exact ⟨by rw [he, hsz], hraw hu⟩
  · rintro ⟨hu, i, v, hv⟩
    by_cases hi : i < N
    · rw [hraw hu i hi] at hv
      cases hv
    · obtain ⟨_, _, _, _, hst⟩ := hhp hu
      rw [hst, List.getElem?_eq_none (by simp; omega)] at hv
      cases hv
  · rintro ⟨hu, i, hi, hv⟩
    rw [hslot_lt hu i (by omega)] at hv
    cases hv

theorem one_storage_region_witness :
    Reachable switched_example ∧ switched_example.using_heap = true ∧
    switched_example.heap_.elems.length = switched_example.size ∧
    switched_example.inline_storage_ = [none, none] ∧
    ¬ (switched_example.using_heap = true ∧
        ∃ (i : Nat) (v : Nat), switched_example.inline_storage_[i]? = some (some v)) :=
  ⟨push_values_reachable [5, 6, 7] switched_example rfl, rfl, rfl, rfl,
    (one_storage_region switched_example
      (push_values_reachable [5, 6, 7] switched_example rfl)).2.2.2.1⟩

/-- C9: the destructor of a reachable container still in inline mode writes
the notice, destroys exactly the inline slots `0 .. size()-1`, each once and
in this order, and frees no heap buffer; the destructor of a container in
heap mode destroys no inline slot (all of them are raw already) and only
destroys the heap elements and frees the buffer. -/
theorem destructor_trace {T : Type} {N : Nat} (s : SmallVector T N) (hr : Reachable s) :
    (s.using_heap = false →
      (destructor s).trace = s.trace ++
        Event.cerr destroy_notice :: (List.range s.size).map Event.destroy_inline_elem) ∧
    (s.using_heap = true →
      (destructor s).trace = s.trace ++
        ((List.range s.size).map Event.destroy_heap_elem ++ [Event.heap_free]) ∧
      s.inline_storage_ = List.replicate N none) := by
  obtain ⟨l, hm⟩ := reachable_models hr
  have hsz : s.size_ = l.length := hm.1
  obtain ⟨hin, hhp⟩ := models_mode hm
  constructor
  · intro hu
    obtain ⟨hc, he, _, hst⟩ := hin hu
    rw [destructor, destroy_inline_spec s l _ hc hsz hst]
    simp [StdVector.destructor_events, StdVector.release_events, he, hc, size, hsz]
  · intro hu
    obtain ⟨hc, he, _, _, hst⟩ := hhp hu
    refine ⟨?_, hst⟩
    simp [destructor, destroy_inline, hu, StdVector.destructor_events,
      StdVector.release_events, he, hc, size, hsz]

theorem destructor_trace_witness :
    Reachable three_example ∧ three_example.using_heap = false ∧
    (destructor three_example).trace = three_example.trace ++
      [Event.cerr destroy_notice, Event.destroy_inline_elem 0, Event.destroy_inline_elem 1,
       Event.destroy_inline_elem 2] :=
  ⟨push_values_reachable [7, 8, 9] three_example rfl, rfl,
    (destructor_trace three_example (push_values_reachable [7, 8, 9] three_example rfl)).1 rfl⟩

/-! ## Lemmas on the phases of the switchover -/

namespace SmallVector

variable {T : Type} {N : Nat}

theorem move_to_heap_outcome (env : Env T) (n : Nat) :
    ∀ (i : Nat) (s : SmallVector T N) (nh : StdVector T) (pre : List (Option T))
      (todo : List T) (post : List (Option T)),
      s.inline_storage_ = pre ++ todo.map some ++ post → pre.length = i → todo.length = n →
      nh.elems.length + n ≤ nh.cap →
      (∀ s1 nh1, move_to_heap env i n s nh = .ok (s1, nh1) →
          ∀ x ∈ todo, env.moveThrows x = false) ∧
      (∀ e s1 nh1, move_to_heap env i n s nh = .thrown e (s1, nh1) →
          ∃ (done : List T) (x : T) (rest : List T),
            todo = done ++ x :: rest ∧ (∀ y ∈ done, env.moveThrows y = false) ∧
            env.moveThrows x = true ∧
            s1.inline_storage_ = pre ++ done.map (fun y => some (env.residue y))
              ++ (x :: rest).map some ++ post ∧
            nh1.elems = nh.elems ++ done) := by
  induction n with
  | zero =>
    intro i s nh pre todo post hs hi hn hcap
    have ht : todo = [] := List.length_eq_zero.mp hn
    subst ht
    simp [move_to_heap]
  | succ n ih =>
    intro i s nh pre todo post hs hi hn hcap
    obtain ⟨x, rest, rfl⟩ : ∃ x rest, todo = x :: rest := by
      cases todo with
      | nil => simp at hn
      | cons x rest => exact ⟨x, rest, rfl⟩
    have hlen : rest.length = n := by simpa using hn
    subst hi
    have hload := load_middle s pre post x rest hs
    have hroom : nh.elems.length < nh.cap := by omega
    by_cases hthrow : env.moveThrows x = true
    · have hm : move_to_heap env pre.length (n + 1) s nh
          = .thrown .element ({ s with trace := s.trace ++ [] }, nh) := by
        simp [move_to_heap, hload, vec_push_back_room, hroom, hthrow]
      rw [hm]
      refine ⟨by simp, ?_⟩
      intro e s1 nh1 h
      simp only [Res.thrown.injEq, Prod.mk.injEq] at h
      obtain ⟨_, rfl, rfl⟩ := h
      refine ⟨[], x, rest, by simp, by simp, hthrow, ?_, by simp⟩
      simpa using hs
    · have hthrow' : env.moveThrows x = false := by simpa using hthrow
      have hm : move_to_heap env pre.length (n + 1) s nh
          = move_to_heap env (pre.length + 1) n
              { s with
                inline_storage_ := s.inline_storage_.set pre.length (some (env.residue x))
                trace := s.trace ++ [] ++ [Event.move_from_inline pre.length] }
              ⟨nh.elems ++ [x], nh.cap, nh.buf⟩ := by
        simp [move_to_heap, hload, vec_push_back_room, hroom, hthrow']
      rw [hm]
      have hset := set_middle pre post x rest (some (env.residue x))
      rw [← hs] at hset
      obtain ⟨h1, h2⟩ := ih (pre.length + 1)
        { s with
          inline_storage_ := s.inline_storage_.set pre.length (some (env.residue x))
          trace := s.trace ++ [] ++ [Event.move_from_inline pre.length] }
        ⟨nh.elems ++ [x], nh.cap, nh.buf⟩ (pre ++ [some (env.residue x)]) rest post
        hset (by simp) hlen (by simp; omega)
      refine ⟨?_, ?_⟩
      · intro s1 nh1 h y hy
        rcases List.mem_cons.mp hy with rfl | hy'
        · exact hthrow'
        · exact h1 s1 nh1 h y hy'
      · intro e s1 nh1 h
        obtain ⟨done, x', rest', e1, e2, e3, e4, e5⟩ := h2 e s1 nh1 h
        refine ⟨x :: done, x', rest', by simp [e1], ?_, e3, ?_, ?_⟩
        · intro y hy
          rcases List.mem_cons.mp hy with rfl | hy'
          · exact hthrow'
          · exact e2 y hy'
        · simpa using e4
        · simpa using e5

theorem live_elements_of_models {s : SmallVector T N} {l : List T} (hm : Models s l) :
    live_elements s = l.length := by
  have hsome : ∀ xs : List T, (xs.map some).countP Option.isSome = xs.length := by
    intro xs
    induction xs with
    | nil => rfl
    | cons x xs ih => simp [List.countP_cons, ih]
  have hnone : ∀ k : Nat, (List.replicate k (none : Option T)).countP Option.isSome = 0 := by
    intro k
    induction k with
    | zero => rfl
    | succ k ih => simp [List.replicate_succ, List.countP_cons, ih]
  obtain ⟨_, h | h⟩ := hm
  · obtain ⟨_, he, _, hst⟩ := h
    simp [live_elements, hst, he, List.countP_append, hsome, hnone]
  · obtain ⟨_, he, _, _, hst⟩ := h
    simp [live_elements, hst, he, hnone]

end SmallVector

namespace SmallVector

variable {T : Type} {N : Nat}

theorem switch_populated_ok (env : Env T) (s : SmallVector T N) (l : List T) (k : Nat)
    (hm : Models s l) (hc : s.heap_.cap = 0) (hN : l.length = N) (hk : k ≤ N)
    (ha : env.allocOk (switch_capacity env N) = true)
    (hmv : ∀ x ∈ l.take k, env.moveThrows x = false) :
    switch_populated env s k =
      .ok ({ s with
             inline_storage_ := (l.take k).map (fun x => some (env.residue x))
               ++ (l.drop k).map some ++ List.replicate (N - l.length) none
             trace := s.trace ++ Event.heap_alloc (switch_capacity env N)
               :: (List.range k).map Event.move_from_inline },
           ⟨l.take k, switch_capacity env N, env.fresh⟩) := by
  obtain ⟨hsz, hmod | hmod⟩ := hm
  swap
  · omega
  obtain ⟨_, he, _, hst⟩ := hmod
  have hsN : s.size_ = N := by omega
  have hres : (StdVector.empty : StdVector T).reserve env (s.size_ * 2 + 1)
      = .ok ⟨[], switch_capacity env N, env.fresh⟩
          [Event.heap_alloc (switch_capacity env N)] := by
    simp only [switch_capacity] at ha
    simp [StdVector.reserve, StdVector.empty, StdVector.release_events, hsN, ha,
      switch_capacity]
  have hst' : s.inline_storage_ = [] ++ (l.take k).map some
      ++ ((l.drop k).map some ++ List.replicate (N - l.length) none) := by
    rw [hst]
    simp only [List.nil_append, ← List.append_assoc, ← List.map_append, List.take_append_drop]
  obtain ⟨h1, _, h3, h4⟩ := move_to_heap_spec env k 0
    ({ s with trace := s.trace ++ [Event.heap_alloc (switch_capacity env N)] } :
      SmallVector T N)
    ⟨[], switch_capacity env N, env.fresh⟩ [] (l.take k)
    ((l.drop k).map some ++ List.replicate (N - l.length) none)
    hst' rfl (by simp; omega) (by simp [switch_capacity]; omega)
  obtain ⟨r, hr⟩ := h4 hmv
  obtain ⟨s1, nh1⟩ := r
  obtain ⟨e1, e2⟩ := h1 s1 nh1 hr
  have : switch_populated env s k = .ok (s1, nh1) := by
    simp only [switch_populated, hres]
    exact hr
  rw [this, e1, e2]
  simp [List.range_eq_range']

theorem switch_to_heap_eq_phases (env : Env T) (s : SmallVector T N) :
    switch_to_heap env s =
      match switch_populated env s s.size_ with
      | .undefined => .undefined
      | .thrown e (s1, nh) => .thrown e { s1 with trace := s1.trace ++ nh.destructor_events }
      | .ok (s1, nh) =>
        .ok { destroy_inline s1 with
              heap_ := nh
              trace := (destroy_inline s1).trace ++ (destroy_inline s1).heap_.release_events
                ++ [Event.install_heap] } := by
  unfold switch_to_heap switch_populated
  cases hres : (StdVector.empty : StdVector T).reserve env (s.size_ * 2 + 1) with
  | thrown e ev =>
    simp [StdVector.destructor_events, StdVector.release_events, StdVector.empty]
  | ok nh ev => simp only

theorem switch_move_failure (env : Env T) (s : SmallVector T N) (l : List T)
    (hm : Models s l) (hc : s.heap_.cap = 0) (hN : l.length = N)
    (ha : env.allocOk (switch_capacity env N) = true)
    (hbad : ∃ x ∈ l, env.moveThrows x = true) :
    ∃ (s' : SmallVector T N) (done : List T) (x : T) (rest : List T),
      switch_to_heap env s = .thrown .element s' ∧
      l = done ++ x :: rest ∧ (∀ y ∈ done, env.moveThrows y = false) ∧
      env.moveThrows x = true ∧ s'.size_ = s.size_ ∧ s'.heap_ = s.heap_ ∧
      Models s' (done.map env.residue ++ x :: rest) := by
  have hmods := hm
  obtain ⟨hsz, hmod | hmod⟩ := hm
  swap
  · omega
  obtain ⟨_, he, _, hst⟩ := hmod
  have hsN : s.size_ = N := by omega
  have hres : (StdVector.empty : StdVector T).reserve env (s.size_ * 2 + 1)
      = .ok ⟨[], switch_capacity env N, env.fresh⟩
          [Event.heap_alloc (switch_capacity env N)] := by
    simp only [switch_capacity] at ha
    simp [StdVector.reserve, StdVector.empty, StdVector.release_events, hsN, ha,
      switch_capacity]
  have hst' : s.inline_storage_ = [] ++ l.map some ++ List.replicate (N - l.length) none := by
    simpa using hst
  obtain ⟨_, h2, h3, _⟩ := move_to_heap_spec env s.size_ 0
    ({ s with trace := s.trace ++ [Event.heap_alloc (switch_capacity env N)] } :
      SmallVector T N)
    ⟨[], switch_capacity env N, env.fresh⟩ [] l (List.replicate (N - l.length) none)
    hst' rfl hsz.symm (by simp [switch_capacity]; omega)
  obtain ⟨g1, g2⟩ := move_to_heap_outcome env s.size_ 0
    ({ s with trace := s.trace ++ [Event.heap_alloc (switch_capacity env N)] } :
      SmallVector T N)
    ⟨[], switch_capacity env N, env.fresh⟩ [] l (List.replicate (N - l.length) none)
    hst' rfl hsz.symm (by simp [switch_capacity]; omega)
  cases hmv : move_to_heap env 0 s.size_
      ({ s with trace := s.trace ++ [Event.heap_alloc (switch_capacity env N)] } :
        SmallVector T N)
      (⟨[], switch_capacity env N, env.fresh⟩ : StdVector T) with
  | undefined => exact absurd hmv h3
  | ok r =>
    obtain ⟨s1, nh1⟩ := r
    obtain ⟨x, hx, hthrow⟩ := hbad
    have := g1 s1 nh1 hmv x hx
    rw [this] at hthrow
    cases hthrow
  | thrown e r =>
    obtain ⟨s1, nh1⟩ := r
    obtain ⟨e1, e2, e3, _, _, _⟩ := h2 e s1 nh1 hmv
    obtain ⟨done, x, rest, d1, d2, d3, d4, _⟩ := g2 e s1 nh1 hmv
    have hsw : switch_to_heap env s
        = .thrown e { s1 with trace := s1.trace ++ nh1.destructor_events } := by
      simp [switch_to_heap, hres, hmv]
    subst e1
    refine ⟨_, done, x, rest, hsw, d1, d2, d3, e2, e3, ?_⟩
    have hlen : (done.map env.residue ++ x :: rest).length = l.length := by
      rw [d1]; simp
    refine ⟨by show s1.size_ = _; rw [e2, hlen]; exact hsz, Or.inl ⟨?_, ?_, by omega, ?_⟩⟩
    · show s1.heap_.cap = 0
      rw [e3]; exact hc
    · show s1.heap_.elems = []
      rw [e3]; exact he
    · show s1.inline_storage_ = _
      rw [d4, hlen]
      simp

end SmallVector

/-! ## The claims on the cursor, on failures and on the switchover -/

theorem iterate_incr (it : iterator) (n : Nat) :
    Nat.iterate iterator.incr n it = it.add (n : Int) := by
  induction n with
  | zero => simp [iterator.add, Ptr.add]
  | succ n ih =>
    rw [Function.iterate_succ_apply', ih]
    simp only [iterator.incr, iterator.add, Ptr.add, iterator.mk.injEq, Ptr.mk.injEq, true_and]
    push_cast
    omega

/-- C11: offset addition on a cursor is associative: for every cursor `it`
and all integer offsets `a` and `b`, `(it + a) + b == it + (a + b)`. -/
theorem iterator_add_assoc (it : iterator) (a b : Int) :
    ((it.add a).add b).eq (it.add (a + b)) = true := by
  simp [iterator.eq, iterator.add, Ptr.add, Int.add_assoc]

/-- C12: the distance counts increments: when `it2` is obtained from a copy of
`it1` by `n` pre-increments, `it2 - it1` is `n` and `it2 == it1 + n`. -/
theorem distance_counts_increments (it1 : iterator) (n : Nat) :
    (Nat.iterate iterator.incr n it1).sub it1 = some (n : Int) ∧
    (Nat.iterate iterator.incr n it1).eq (it1.add (n : Int)) = true := by
  rw [iterate_incr]
  constructor
  · simp [iterator.sub, iterator.add, Ptr.add, Ptr.diff]
  · simp [iterator.eq]

/-- C13, as stated, fails: the cursor has no post-decrement; `struct iterator`
declares no `operator--(int)`. -/
theorem post_decrement_absent :
    iterator.move iterator.Move.post_decr ⟨⟨Block.inline_storage, 1⟩⟩ = none ∧
    ¬ ∃ r, iterator.move iterator.Move.post_decr ⟨⟨Block.inline_storage, 1⟩⟩ = some r :=
  ⟨rfl, fun ⟨_, h⟩ => by cases h⟩

/-- C13, amended: the cursor provides pre-increment, post-increment and
pre-decrement, and no post-decrement.  Each of the three moves the cursor by
exactly one position, forward for the increments and backward for the
decrement; the pre- forms return the moved cursor and the post-increment
returns the position held before the move. -/
theorem cursor_moves_by_one (it : iterator) :
    iterator.move iterator.Move.pre_incr it = some (it.add 1, it.add 1) ∧
    iterator.move iterator.Move.post_incr it = some (it, it.add 1) ∧
    iterator.move iterator.Move.pre_decr it = some (it.add (-1), it.add (-1)) ∧
    iterator.move iterator.Move.post_decr it = none ∧
    (it.add 1).sub it = some 1 ∧ (it.add (-1)).sub it = some (-1) := by
  refine ⟨rfl, rfl, rfl, rfl, ?_, ?_⟩ <;> simp [iterator.sub, iterator.add, Ptr.add, Ptr.diff]

/-- C14: in every reachable state, inline or heap, `begin()` and `end()` bound
exactly the live range: `end() - begin()` is `size()`, `begin() + i`
designates the element `get i` for every `i < size()`, and `begin() == end()`
exactly when the container is empty. -/
theorem begin_end_bound_live_range {T : Type} {N : Nat} {s : SmallVector T N}
    (hr : Reachable s) :
    s.end_.sub s.begin = some (s.size : Int) ∧
    (∀ i : Nat, i < s.size →
      iterator.deref s (s.begin.add (i : Int)) = s.get i ∧ ∃ x, s.get i = some x) ∧
    (s.begin.eq s.end_ = true ↔ s.empty = true) := by
  obtain ⟨l, hm⟩ := reachable_models hr
  have hsz : s.size_ = l.length := hm.1
  obtain ⟨b, hb, he, hload⟩ := cursor_range hm
  refine ⟨?_, ?_, ?_⟩
  · rw [hb, he]
    simp [iterator.sub, Ptr.diff, size, hsz]
  · intro i hi
    have hi' : i < l.length := by simpa [size, hsz] using hi
    rw [hb, get_of_models hm]
    refine ⟨?_, l[i], List.getElem?_eq_getElem hi'⟩
    have := hload i
    simpa [iterator.deref, iterator.add, Ptr.add] using this
  · rw [hb, he]
    simp only [iterator.eq, SmallVector.empty, hsz, beq_iff_eq, Ptr.mk.injEq, true_and]
    constructor
    · intro h; omega
    · intro h; omega

theorem begin_end_bound_live_range_witness :
    Reachable switched_example ∧
    switched_example.end_.sub switched_example.begin = some 3 ∧
    iterator.deref switched_example (switched_example.begin.add 2) = some 7 :=
  ⟨push_values_reachable [5, 6, 7] switched_example rfl,
    (begin_end_bound_live_range (push_values_reachable [5, 6, 7] switched_example rfl)).1,
    rfl⟩

/-- C15: when the allocator refuses the request an append makes, at the
reservation of the switchover or at a growth of the heap buffer, the append
throws `std::bad_alloc` to its caller and leaves the container as it was; and
after any append that throws, `size()` is what it was before the call and
equals the number of live elements. -/
theorem alloc_failure_keeps_length {T : Type} {N : Nat} {s : SmallVector T N}
    (hr : Reachable s) (env : Env T) (v : T) :
    (s.using_heap = false → ¬ s.size < N →
      env.allocOk (switch_capacity env s.size) = false →
      push_back env s v = .thrown .bad_alloc s ∧
        push_back_move env s v = .thrown .bad_alloc s) ∧
    (s.using_heap = true → s.heap_.capacity ≤ s.size →
      env.allocOk (s.size + 1 + env.slack (s.size + 1)) = false →
      push_back env s v = .thrown .bad_alloc s ∧
        push_back_move env s v = .thrown .bad_alloc s) ∧
    (∀ e s', (push_back env s v = .thrown e s' ∨ push_back_move env s v = .thrown e s') →
      s'.size = s.size ∧ live_elements s' = s'.size) ∧
    live_elements s = s.size := by
  obtain ⟨l, hm⟩ := reachable_models hr
  have hsz : s.size_ = l.length := hm.1
  obtain ⟨hin, hhp⟩ := models_mode hm
  refine ⟨?_, ?_, ?_, ?_⟩
  · intro hu hfull ha
    have key : ∀ ct, push_back_with ct env s v = .thrown .bad_alloc s := by
      intro ct
      have hfull' : ¬ s.size_ < N := hfull
      have ha' : env.allocOk (s.size_ * 2 + 1 + env.slack (s.size_ * 2 + 1)) = false := ha
      simp [push_back_with, hu, hfull', switch_to_heap, StdVector.reserve, StdVector.empty, ha']
    exact ⟨by rw [push_back_eq_with]; exact key _, by rw [push_back_move_eq_with]; exact key _⟩
  · intro hu hcap ha
    obtain ⟨_, he, _, _, _⟩ := hhp hu
    have key : ∀ ct, push_back_with ct env s v = .thrown .bad_alloc s := by
      intro ct
      have hlen : s.heap_.elems.length = s.size_ := by rw [he, hsz]
      have hroom : ¬ s.size_ < s.heap_.cap := by
        have : s.heap_.cap ≤ s.size_ := hcap
        omega
      have ha' : env.allocOk (s.size_ + 1 + env.slack (s.size_ + 1)) = false := ha
      simp [push_back_with, hu, heap_push_back, StdVector.push_back, hlen, hroom, ha']
    exact ⟨by rw [push_back_eq_with]; exact key _, by rw [push_back_move_eq_with]; exact key _⟩
  · intro e s' h
    have key : ∀ ct, push_back_with ct env s v = .thrown e s' →
        s'.size = s.size ∧ live_elements s' = s'.size := by
      intro ct hp
      obtain ⟨h1, ⟨l', hl', hm'⟩, _⟩ := (push_back_with_spec ct env s l v hm).2.1 e s' hp
      refine ⟨h1, ?_⟩
      rw [live_elements_of_models hm']
      exact hm'.1.symm
    rcases h with h | h
    · exact key _ (by rw [← push_back_eq_with]; exact h)
    · exact key _ (by rw [← push_back_move_eq_with]; exact h)
  · rw [live_elements_of_models hm]
    exact hsz.symm

theorem alloc_failure_keeps_length_witness :
    Reachable full_inline_example ∧
    (push_back no_memory_env full_inline_example 7 = .thrown .bad_alloc full_inline_example ∧
      push_back_move no_memory_env full_inline_example 7
        = .thrown .bad_alloc full_inline_example) ∧
    live_elements full_inline_example = 2 :=
  ⟨push_values_reachable [5, 6] full_inline_example rfl,
    (alloc_failure_keeps_length (push_values_reachable [5, 6] full_inline_example rfl)
      no_memory_env 7).1 rfl (by decide) rfl,
    rfl⟩

theorem destroy_inline_heap {T : Type} {N : Nat} (s : SmallVector T N) :
    (destroy_inline s).heap_ = s.heap_ := by
  unfold destroy_inline
  split <;> rfl

theorem switch_ok_moves_ok {T : Type} {N : Nat} (env : Env T) (s s' : SmallVector T N)
    (l : List T) (hm : Models s l) (hc : s.heap_.cap = 0) (hN : l.length = N)
    (h : switch_to_heap env s = .ok s') :
    env.allocOk (switch_capacity env N) = true ∧ ∀ x ∈ l, env.moveThrows x = false := by
  obtain ⟨ha, _⟩ := (switch_to_heap_spec env s l hm hc hN).1 s' h
  refine ⟨ha, fun x hx => ?_⟩
  by_contra hcon
  have hthrow : env.moveThrows x = true := by simpa using hcon
  obtain ⟨s2, _, _, _, hsw, _⟩ := switch_move_failure env s l hm hc hN ha ⟨x, hx, hthrow⟩
  rw [hsw] at h
  cases h

/-- C16: when the move of an inline element throws during the switchover, the
append throws the element's exception and the container is still in inline
mode with `size() = N` and all `N` inline slots constructed, so it holds as
many live elements as before.  The slots before the first element whose move
throws hold moved-from objects; the others hold the values they held. -/
theorem move_failure_keeps_inline {T : Type} {N : Nat} {s : SmallVector T N}
    (hr : Reachable s) (env : Env T) (v : T) (hu : s.using_heap = false)
    (hfull : ¬ s.size < N) (halloc : env.allocOk (switch_capacity env N) = true)
    (j : Nat) (x : T) (hx : s.get j = some x)
    (hthrow : env.moveThrows x = true) :
    ∃ s' : SmallVector T N,
      push_back env s v = .thrown .element s' ∧
      push_back_move env s v = .thrown .element s' ∧
      s'.using_heap = false ∧ s'.size = N ∧ s'.size = s.size ∧
      (∀ i : Nat, i < N → ∃ y, s'.inline_storage_[i]? = some (some y)) ∧
      live_elements s' = N ∧
      ∃ k : Nat, k ≤ j ∧ (∀ i, i < k → s'.get i = (s.get i).map env.residue) ∧
        ∀ i, k ≤ i → s'.get i = s.get i := by
  obtain ⟨l, hm⟩ := reachable_models hr
  have hsz : s.size_ = l.length := hm.1
  obtain ⟨hc, _, hle, _⟩ := (models_mode hm).1 hu
  have hfull' : ¬ s.size_ < N := hfull
  have hN : l.length = N := by omega
  have hxl : l[j]? = some x := by rw [← get_of_models hm]; exact hx
  have hmem : x ∈ l := List.getElem?_mem hxl
  obtain ⟨s', done, x', rest, hsw, hl, hdone, _, hs1, hs2, hm'⟩ :=
    switch_move_failure env s l hm hc hN halloc ⟨x, hmem, hthrow⟩
  have key : ∀ ct, push_back_with ct env s v = .thrown .element s' := by
    intro ct
    simp [push_back_with, hu, hfull', hsw]
  have hlen' : (done.map env.residue ++ x' :: rest).length = N := by
    rw [← hN, hl]; simp
  have hu' : s'.using_heap = false := by
    rw [using_heap_eq_false, hs2]; exact hc
  obtain ⟨_, _, _, hst'⟩ := (models_mode hm').1 hu'
  refine ⟨s', by rw [push_back_eq_with]; exact key _,
    by rw [push_back_move_eq_with]; exact key _, hu', ?_, hs1, ?_, ?_, done.length, ?_, ?_, ?_⟩
  · show s'.size_ = N
    rw [hs1]; omega
  · intro i hi
    have hi' : i < (done.map env.residue ++ x' :: rest).length := by omega
    refine ⟨(done.map env.residue ++ x' :: rest)[i], ?_⟩
    rw [hst', List.getElem?_append_left (by simpa using hi'), List.getElem?_map,
      List.getElem?_eq_getElem hi']
    rfl
  · rw [live_elements_of_models hm', hlen']
  · by_contra hcon
    have hjd : j < done.length := by omega
    rw [hl, List.getElem?_append_left hjd, List.getElem?_eq_getElem hjd] at hxl
    simp only [Option.some.injEq] at hxl
    have := hdone x (by rw [← hxl]; exact List.getElem_mem _)
    rw [this] at hthrow
    cases hthrow
  · intro i hi
    rw [get_of_models hm', get_of_models hm, hl,
      List.getElem?_append_left (by simpa using hi), List.getElem?_append_left hi,
      List.getElem?_map]
  · intro i hi
    rw [get_of_models hm', get_of_models hm, hl,
      List.getElem?_append_right (by simpa using hi), List.getElem?_append_right hi,
      List.length_map]

theorem move_failure_keeps_inline_witness :
    Reachable full_inline_example ∧
    ∃ s' : SmallVector Nat 2,
      push_back (throwing_move_env 6) full_inline_example 7 = .thrown .element s' ∧
      push_back_move (throwing_move_env 6) full_inline_example 7 = .thrown .element s' ∧
      s'.using_heap = false ∧ s'.size = 2 ∧ s'.size = full_inline_example.size ∧
      (∀ i : Nat, i < 2 → ∃ y, s'.inline_storage_[i]? = some (some y)) ∧
      live_elements s' = 2 ∧
      ∃ k : Nat, k ≤ 1 ∧
        (∀ i, i < k →
          s'.get i = (full_inline_example.get i).map (throwing_move_env 6).residue) ∧
        ∀ i, k ≤ i → s'.get i = full_inline_example.get i :=
  ⟨push_values_reachable [5, 6] full_inline_example rfl,
    move_failure_keeps_inline (push_values_reachable [5, 6] full_inline_example rfl)
      (throwing_move_env 6) 7 rfl (by decide) rfl 1 6 rfl rfl⟩

/-- C17, as stated, fails: in the switchover of a full container of inline
capacity 2 the installation of the heap buffer does not come before the
destruction of inline slot 0; the destruction comes first. -/
theorem install_not_before_destroy :
    switch_to_heap (Env.benign Nat) full_inline_example = .ok switch_only_example ∧
    precedes Event.install_heap (Event.destroy_inline_elem 0) switch_only_example.trace
      = false ∧
    precedes (Event.destroy_inline_elem 0) Event.install_heap switch_only_example.trace
      = true :=
  ⟨rfl, by decide, by decide⟩

/-- C17, amended: a switchover performs its steps in this order: it reserves
a scratch buffer and moves all `N` elements into it in index order, then
writes the notice and destroys the `N` inline elements in index order, and
only then installs the scratch buffer as the heap storage of the container;
the installation is the last step. -/
theorem switchover_order {T : Type} {N : Nat} {s s' : SmallVector T N} (hr : Reachable s)
    (env : Env T) (hu : s.using_heap = false) (hfull : ¬ s.size < N)
    (h : switch_to_heap env s = .ok s') :
    s'.trace = s.trace ++
      (Event.heap_alloc (switch_capacity env N) :: (List.range N).map Event.move_from_inline
        ++ Event.cerr destroy_notice :: (List.range N).map Event.destroy_inline_elem
        ++ [Event.install_heap]) ∧
    s'.trace.getLast? = some Event.install_heap := by
  obtain ⟨l, hm⟩ := reachable_models hr
  have hsz : s.size_ = l.length := hm.1
  obtain ⟨hc, _, hle, _⟩ := (models_mode hm).1 hu
  have hfull' : ¬ s.size_ < N := hfull
  have hN : l.length = N := by omega
  obtain ⟨_, hs'⟩ := (switch_to_heap_spec env s l hm hc hN).1 s' h
  subst hs'
  refine ⟨rfl, ?_⟩
  show (s.trace ++ switch_events env N).getLast? = some Event.install_heap
  rw [switch_events, ← List.append_assoc, List.getLast?_append]
  rfl

theorem switchover_order_witness :
    Reachable full_inline_example ∧
    switch_to_heap (Env.benign Nat) full_inline_example = .ok switch_only_example ∧
    switch_only_example.trace = full_inline_example.trace ++
      [Event.heap_alloc 5, Event.move_from_inline 0, Event.move_from_inline 1,
       Event.cerr destroy_notice, Event.destroy_inline_elem 0, Event.destroy_inline_elem 1,
       Event.install_heap] ∧
    switch_only_example.trace.getLast? = some Event.install_heap :=
  ⟨push_values_reachable [5, 6] full_inline_example rfl, rfl,
    (switchover_order (push_values_reachable [5, 6] full_inline_example rfl)
      (Env.benign Nat) rfl (by decide) rfl).1,
    (switchover_order (push_values_reachable [5, 6] full_inline_example rfl)
      (Env.benign Nat) rfl (by decide) rfl).2⟩

/-- C18: throughout a switchover the container keeps reporting inline mode:
the member heap buffer has capacity zero after the reservation of the scratch
buffer, after each of the moves into it, and after the destruction of the
inline elements (neither loop touches the member).  The installation of the
scratch buffer is the last step and the one that turns the mode to heap. -/
theorem mode_changes_at_install {T : Type} {N : Nat} {s s' : SmallVector T N}
    (hr : Reachable s) (env : Env T) (hu : s.using_heap = false) (hfull : ¬ s.size < N)
    (h : switch_to_heap env s = .ok s') :
    (∀ k : Nat, k ≤ s.size → ∃ sk nk, switch_populated env s k = .ok (sk, nk) ∧
      sk.using_heap = false ∧ sk.heap_.capacity = 0 ∧ nk.elems.length = k) ∧
    (∃ sd nh, switch_destroyed env s = .ok (sd, nh) ∧
      sd.using_heap = false ∧ sd.heap_.capacity = 0 ∧
      s' = { sd with heap_ := nh, trace := sd.trace ++ [Event.install_heap] }) ∧
    s'.using_heap = true ∧ s'.trace.getLast? = some Event.install_heap := by
  obtain ⟨l, hm⟩ := reachable_models hr
  have hsz : s.size_ = l.length := hm.1
  obtain ⟨hc, _, hle, _⟩ := (models_mode hm).1 hu
  have hfull' : ¬ s.size_ < N := hfull
  have hN : l.length = N := by omega
  obtain ⟨ha, hmv⟩ := switch_ok_moves_ok env s s' l hm hc hN h
  have hpop : ∀ k : Nat, k ≤ N → _ := fun k hk =>
    switch_populated_ok env s l k hm hc hN hk ha
      (fun x hx => hmv x (List.mem_of_mem_take hx))
  refine ⟨?_, ?_, ?_, ?_⟩
  · intro k hk
    have hk' : k ≤ N := by simp only [size] at hk; omega
    refine ⟨_, _, hpop k hk', ?_, ?_, ?_⟩
    · rw [using_heap_eq_false]; exact hc
    · exact hc
    · simp; omega
  · obtain ⟨sk, nk, hk, hkh⟩ : ∃ sk nk, switch_populated env s s.size_ = .ok (sk, nk) ∧
        sk.heap_ = s.heap_ := ⟨_, _, hpop s.size_ (by omega), rfl⟩
    have hphase := switch_to_heap_eq_phases env s
    rw [hk] at hphase
    simp only at hphase
    rw [h] at hphase
    simp only [Res.ok.injEq] at hphase
    have hd : switch_destroyed env s = .ok (destroy_inline sk, nk) := by
      simp only [switch_destroyed, hk]
    have hdc : (destroy_inline sk).heap_.cap = 0 := by
      rw [destroy_inline_heap, hkh]; exact hc
    refine ⟨destroy_inline sk, nk, hd, (using_heap_eq_false _).mpr hdc, hdc, ?_⟩
    rw [hphase]
    simp [StdVector.release_events, hdc]
  · obtain ⟨_, hs'⟩ := (switch_to_heap_spec env s l hm hc hN).1 s' h
    subst hs'
    simp [using_heap, StdVector.capacity, switch_capacity]
  · obtain ⟨_, hs'⟩ := (switch_to_heap_spec env s l hm hc hN).1 s' h
    subst hs'
    show (s.trace ++ switch_events env N).getLast? = some Event.install_heap
    rw [switch_events, ← List.append_assoc, List.getLast?_append]
    rfl

theorem mode_changes_at_install_witness :
    Reachable full_inline_example ∧
    switch_to_heap (Env.benign Nat) full_inline_example = .ok switch_only_example ∧
    (∃ sk nk, switch_populated (Env.benign Nat) full_inline_example 1 = .ok (sk, nk) ∧
      sk.using_heap = false ∧ sk.heap_.capacity = 0 ∧ nk.elems.length = 1) ∧
    switch_only_example.using_heap = true :=
  ⟨push_values_reachable [5, 6] full_inline_example rfl, rfl,
    (mode_changes_at_install (push_values_reachable [5, 6] full_inline_example rfl)
      (Env.benign Nat) rfl (by decide) rfl).1 1 (by decide),
    rfl⟩

/-- C19: whenever the switchover runs (a reachable state in inline mode with
no room left), the length is exactly `N`; the scratch buffer is reserved with
capacity at least `2N + 1` while it is still empty, before any element is
moved into it; and the installed buffer has capacity at least `2N + 1`, which
is positive for every `N`, `N = 0` included. -/
theorem switchover_reserves {T : Type} {N : Nat} {s : SmallVector T N} (hr : Reachable s)
    (env : Env T) (hu : s.using_heap = false) (hfull : ¬ s.size < N) :
    s.size = N ∧
    (∀ sk nk, switch_populated env s 0 = .ok (sk, nk) →
      nk.elems = [] ∧ 2 * N + 1 ≤ nk.capacity ∧ sk.inline_storage_ = s.inline_storage_) ∧
    (∀ s', switch_to_heap env s = .ok s' →
      2 * N + 1 ≤ s'.heap_.capacity ∧ 0 < s'.heap_.capacity ∧
      (s'.trace.drop s.trace.length).head? = some (Event.heap_alloc s'.heap_.capacity)) := by
  obtain ⟨l, hm⟩ := reachable_models hr
  have hsz : s.size_ = l.length := hm.1
  obtain ⟨hc, _, hle, _⟩ := (models_mode hm).1 hu
  have hfull' : ¬ s.size_ < N := hfull
  have hN : l.length = N := by omega
  have hsN : s.size_ = N := by omega
  refine ⟨hsN, ?_, ?_⟩
  · intro sk nk h
    by_cases ha : env.allocOk (s.size_ * 2 + 1 + env.slack (s.size_ * 2 + 1)) = true
    · simp [switch_populated, StdVector.reserve, StdVector.empty, ha, move_to_heap] at h
      obtain ⟨h1, h2⟩ := h
      subst h1 h2
      refine ⟨rfl, ?_, rfl⟩
      show 2 * N + 1 ≤ s.size_ * 2 + 1 + env.slack (s.size_ * 2 + 1)
      omega
    · have ha' : env.allocOk (s.size_ * 2 + 1 + env.slack (s.size_ * 2 + 1)) = false := by
        simpa using ha
      simp [switch_populated, StdVector.reserve, StdVector.empty, ha'] at h
  · intro s' h
    obtain ⟨_, hs'⟩ := (switch_to_heap_spec env s l hm hc hN).1 s' h
    subst hs'
    refine ⟨?_, ?_, ?_⟩
    · show 2 * N + 1 ≤ switch_capacity env N
      simp only [switch_capacity]; omega
    · show 0 < switch_capacity env N
      simp only [switch_capacity]; omega
    · show ((s.trace ++ switch_events env N).drop s.trace.length).head? = _
      rw [List.drop_left]
      rfl

theorem switchover_reserves_witness :
    Reachable full_inline_example ∧ full_inline_example.size = 2 ∧
    switch_to_heap (Env.benign Nat) full_inline_example = .ok switch_only_example ∧
    (2 * 2 + 1 ≤ switch_only_example.heap_.capacity ∧
      0 < switch_only_example.heap_.capacity ∧
      (switch_only_example.trace.drop full_inline_example.trace.length).head?
        = some (Event.heap_alloc switch_only_example.heap_.capacity)) :=
  ⟨push_values_reachable [5, 6] full_inline_example rfl, rfl, rfl,
    (switchover_reserves (push_values_reachable [5, 6] full_inline_example rfl)
      (Env.benign Nat) rfl (by decide)).2.2 switch_only_example rfl⟩

/-- C20: in every reachable state and for every index `i < size()`, `get i`
and `set i v` address a live element of the authoritative storage: in inline
mode `i < N` and inline slot `i` holds a constructed object, in heap mode `i`
is below the heap buffer's own length; both calls are defined, so the
out-of-range case of the indexing does not arise. -/
theorem index_addresses_live_element {T : Type} {N : Nat} {s : SmallVector T N}
    (hr : Reachable s) (i : Nat) (hi : i < s.size) :
    (s.using_heap = false → i < N ∧ ∃ x, s.inline_storage_[i]? = some (some x)) ∧
    (s.using_heap = true → i < s.heap_.elems.length) ∧
    (∃ x, s.get i = some x) ∧
    (∀ v, ∃ s', s.set i v = some s' ∧ s'.get i = some v ∧ s'.size = s.size) := by
  obtain ⟨l, hm⟩ := reachable_models hr
  have hsz : s.size_ = l.length := hm.1
  have hi' : i < l.length := by simp only [size] at hi; omega
  obtain ⟨hin, hhp⟩ := models_mode hm
  refine ⟨?_, ?_, ?_, ?_⟩
  · intro hu
    obtain ⟨_, _, hle, hst⟩ := hin hu
    refine ⟨by omega, l[i], ?_⟩
    rw [hst, List.getElem?_append_left (by simpa using hi'), List.getElem?_map,
      List.getElem?_eq_getElem hi']
    rfl
  · intro hu
    obtain ⟨_, he, _, _, _⟩ := hhp hu
    rw [he]; exact hi'
  · exact ⟨l[i], by rw [get_of_models hm, List.getElem?_eq_getElem hi']⟩
  · intro v
    obtain ⟨h1, h2⟩ := set_spec s l i v hm
    obtain ⟨s', hs'⟩ := h2 hi'
    obtain ⟨_, hm', _, hsize, _⟩ := h1 s' hs'
    refine ⟨s', hs', ?_, hsize⟩
    rw [get_of_models hm']
    simp [hi']

theorem index_addresses_live_element_witness :
    Reachable three_example ∧
    (three_example.using_heap = false →
      2 < 4 ∧ ∃ x, three_example.inline_storage_[2]? = some (some x)) ∧
    three_example.get 2 = some 9 ∧ three_example.get 3 = none :=
  ⟨push_values_reachable [7, 8, 9] three_example rfl,
    (index_addresses_live_element (push_values_reachable [7, 8, 9] three_example rfl)
      2 (by decide)).1,
    rfl, rfl⟩

/-! ## Lemmas on the trace -/

namespace SmallVector

variable {T : Type} {N : Nat}

theorem quiet_count_cerr (ev : List Event) (h : ∀ x ∈ ev, is_quiet_event x = true)
    (m : String) : ev.count (Event.cerr m) = 0 := by
  apply List.count_eq_zero.mpr
  intro hmem
  have := h _ hmem
  simp [is_quiet_event] at this

theorem quiet_count_install (ev : List Event) (h : ∀ x ∈ ev, is_quiet_event x = true) :
    ev.count Event.install_heap = 0 := by
  apply List.count_eq_zero.mpr
  intro hmem
  have := h _ hmem
  simp [is_quiet_event] at this

theorem quiet_slot_events (ev : List Event) (h : ∀ x ∈ ev, is_quiet_event x = true) :
    slot_events ev = [] := by
  simp only [slot_events, List.filter_eq_nil_iff]
  intro a ha
  have := h a ha
  cases a <;> simp [is_quiet_event, is_slot_event] at this ⊢

theorem slot_events_append (a b : List Event) :
    slot_events (a ++ b) = slot_events a ++ slot_events b := by
  simp [slot_events]

theorem slot_events_map_keep (f : Nat → Event) (h : ∀ i, is_slot_event (f i) = true)
    (l : List Nat) : slot_events (l.map f) = l.map f := by
  simp only [slot_events, List.filter_eq_self]
  intro a ha
  obtain ⟨i, _, rfl⟩ := List.mem_map.mp ha
  exact h i

theorem slot_events_map_drop (f : Nat → Event) (h : ∀ i, is_slot_event (f i) = false)
    (l : List Nat) : slot_events (l.map f) = [] := by
  simp only [slot_events, List.filter_eq_nil_iff]
  intro a ha
  obtain ⟨i, _, rfl⟩ := List.mem_map.mp ha
  simp [h i]

theorem slot_events_switch_events (env : Env T) (n : Nat) :
    slot_events (switch_events env n) = (List.range n).map Event.destroy_inline_elem := by
  have h1 := slot_events_map_drop Event.move_from_inline (fun _ => rfl) (List.range n)
  have h2 := slot_events_map_keep Event.destroy_inline_elem (fun _ => rfl) (List.range n)
  have h3 : ∀ (e : Event) (tl : List Event), is_slot_event e = false →
      slot_events (e :: tl) = slot_events tl := by
    intro e tl he
    simp [slot_events, List.filter_cons, he]
  rw [switch_events, slot_events_append, slot_events_append,
    h3 (Event.heap_alloc (switch_capacity env n)) _ rfl, h1,
    h3 (Event.cerr destroy_notice) _ rfl, h2]
  simp [slot_events, is_slot_event]

theorem count_cerr_switch_events (env : Env T) (n : Nat) :
    (switch_events env n).count (Event.cerr destroy_notice) = 1 := by
  have h1 : ((List.range n).map Event.move_from_inline).count (Event.cerr destroy_notice) = 0 :=
    List.count_eq_zero.mpr (by simp)
  have h2 : ((List.range n).map Event.destroy_inline_elem).count (Event.cerr destroy_notice)
      = 0 := List.count_eq_zero.mpr (by simp)
  simp [switch_events, List.count_cons, List.count_append, h1, h2]

theorem switch_thrown_trace (env : Env T) (s s' : SmallVector T N) (l : List T) (e : Exn)
    (hm : Models s l) (hc : s.heap_.cap = 0) (hN : l.length = N)
    (h : switch_to_heap env s = .thrown e s') :
    ∃ ev, s'.trace = s.trace ++ ev ∧ ∀ x ∈ ev, is_quiet_event x = true := by
  obtain ⟨hsz, hmod | hmod⟩ := hm
  swap
  · omega
  obtain ⟨_, he, _, hst⟩ := hmod
  have hsN : s.size_ = N := by omega
  by_cases ha : env.allocOk (switch_capacity env N) = true
  · have hres : (StdVector.empty : StdVector T).reserve env (s.size_ * 2 + 1)
        = .ok ⟨[], switch_capacity env N, env.fresh⟩
            [Event.heap_alloc (switch_capacity env N)] := by
      simp only [switch_capacity] at ha
      simp [StdVector.reserve, StdVector.empty, StdVector.release_events, hsN, ha,
        switch_capacity]
    have hst' : s.inline_storage_ = [] ++ l.map some ++ List.replicate (N - l.length) none := by
      simpa using hst
    obtain ⟨_, h2, h3, _⟩ := move_to_heap_spec env s.size_ 0
      ({ s with trace := s.trace ++ [Event.heap_alloc (switch_capacity env N)] } :
        SmallVector T N)
      ⟨[], switch_capacity env N, env.fresh⟩ [] l (List.replicate (N - l.length) none)
      hst' rfl hsz.symm (by simp [switch_capacity]; omega)
    cases hmv : move_to_heap env 0 s.size_
        ({ s with trace := s.trace ++ [Event.heap_alloc (switch_capacity env N)] } :
          SmallVector T N)
        (⟨[], switch_capacity env N, env.fresh⟩ : StdVector T) with
    | undefined => exact absurd hmv h3
    | ok r =>
      obtain ⟨s1, nh1⟩ := r
      have hsw : switch_to_heap env s
          = .ok { destroy_inline s1 with
                  heap_ := nh1
                  trace := (destroy_inline s1).trace ++ (destroy_inline s1).heap_.release_events
                    ++ [Event.install_heap] } := by
        simp [switch_to_heap, hres, hmv]
      rw [hsw] at h
      cases h
    | thrown e1 r =>
      obtain ⟨s1, nh1⟩ := r
      obtain ⟨_, _, _, _, ⟨k, _, _, htr⟩, _⟩ := h2 e1 s1 nh1 hmv
      have hsw : switch_to_heap env s
          = .thrown e1 { s1 with trace := s1.trace ++ nh1.destructor_events } := by
        simp [switch_to_heap, hres, hmv]
      rw [hsw] at h
      simp only [Res.thrown.injEq] at h
      obtain ⟨_, rfl⟩ := h
      refine ⟨Event.heap_alloc (switch_capacity env N)
        :: (List.range' 0 k).map Event.move_from_inline ++ nh1.destructor_events, ?_, ?_⟩
      · show s1.trace ++ nh1.destructor_events = _
        rw [htr]
        simp
      · intro x hx
        simp only [List.cons_append, List.mem_cons, List.mem_append, List.mem_map,
          StdVector.destructor_events, StdVector.release_events] at hx
        rcases hx with rfl | ⟨i, _, rfl⟩ | ⟨i, _, rfl⟩ | hx
        · rfl
        · rfl
        · rfl
        · split at hx
          · simp only [List.mem_singleton] at hx
            subst hx
            rfl
          · cases hx
  · have ha' : env.allocOk (switch_capacity env N) = false := by simpa using ha
    have hres : (StdVector.empty : StdVector T).reserve env (s.size_ * 2 + 1)
        = .thrown .bad_alloc [] := by
      simp only [switch_capacity] at ha'
      simp [StdVector.reserve, StdVector.empty, hsN, ha']
    have hsw : switch_to_heap env s = .thrown .bad_alloc { s with trace := s.trace ++ [] } := by
      simp [switch_to_heap, hres]
    rw [hsw] at h
    simp only [Res.thrown.injEq] at h
    obtain ⟨_, rfl⟩ := h
    exact ⟨[], rfl, by simp⟩

end SmallVector

namespace SmallVector

variable {T : Type} {N : Nat}

theorem push_back_with_delta (ct : Bool) (env : Env T) (s s' : SmallVector T N) (l : List T)
    (v : T) (hm : Models s l)
    (h : push_back_with ct env s v = .ok s' ∨ ∃ e, push_back_with ct env s v = .thrown e s') :
    (s.heap_.cap = 0 ∧ s'.heap_.cap = 0 ∧ s'.size_ = s.size_ + 1 ∧
      s'.trace = s.trace ++ [Event.construct_inline s.size_]) ∨
    (s.heap_.cap = 0 ∧ s'.heap_.cap = 0 ∧ s'.size_ = s.size_ ∧
      ∃ ev, s'.trace = s.trace ++ ev ∧ ∀ x ∈ ev, is_quiet_event x = true) ∨
    (s.heap_.cap = 0 ∧ s.size_ = N ∧ 2 * N + 1 ≤ s'.heap_.cap ∧
      s'.trace = s.trace ++ switch_events env N) ∨
    (0 < s.heap_.cap ∧ s.heap_.cap ≤ s'.heap_.cap ∧
      ∃ ev, s'.trace = s.trace ++ ev ∧ ∀ x ∈ ev, is_quiet_event x = true) := by
  have hsz : s.size_ = l.length := hm.1
  obtain ⟨hok, hthrown, _, _⟩ := push_back_with_spec ct env s l v hm
  by_cases hc : s.heap_.cap = 0
  · have hu : s.using_heap = false := (using_heap_eq_false s).mpr hc
    have hle : l.length ≤ N := by
      obtain ⟨_, hmod | hmod⟩ := hm
      · exact hmod.2.2.1
      · omega
    by_cases hlt : l.length < N
    · rcases h with h | ⟨e, h⟩
      · obtain ⟨_, _, hcase⟩ := hok s' h
        rcases hcase with ⟨_, _, rfl⟩ | ⟨_, hN, _⟩ | ⟨hc', _⟩ | ⟨hc', _⟩
        · exact Or.inl ⟨hc, hc, rfl, rfl⟩
        · omega
        · omega
        · omega
      · obtain ⟨_, _, hcase⟩ := hthrown e s' h
        rcases hcase with ⟨_, _, rfl⟩ | ⟨_, hN, _⟩ | ⟨_, hN, _⟩ | ⟨hc', _⟩
        · exact Or.inr (Or.inl ⟨hc, hc, rfl, [], by simp, by simp⟩)
        · omega
        · omega
        · omega
    · have hN : l.length = N := by omega
      have hnlt : ¬ s.size_ < N := by omega
      obtain ⟨h1, h2, h3, _⟩ := switch_to_heap_spec env s l hm hc hN
      cases hsw : switch_to_heap env s with
      | undefined => exact absurd hsw h3
      | thrown e1 s1 =>
        have hp : push_back_with ct env s v = .thrown e1 s1 := by
          simp [push_back_with, hu, hnlt, hsw]
        have hs' : s' = s1 := by
          rcases h with h | ⟨e, h⟩
          · rw [hp] at h; cases h
          · rw [hp] at h
            simp only [Res.thrown.injEq] at h
            exact h.2.symm
        subst hs'
        obtain ⟨a, b, _⟩ := h2 e1 s' hsw
        refine Or.inr (Or.inl ⟨hc, by rw [b]; exact hc, a, ?_⟩)
        exact switch_thrown_trace env s s' l e1 hm hc hN hsw
      | ok s1 =>
        have hp : push_back_with ct env s v = heap_push_back env s1 v ct := by
          simp [push_back_with, hu, hnlt, hsw]
        obtain ⟨_, hs1⟩ := h1 s1 hsw
        have hm1 : Models s1 l := by
          subst hs1
          refine ⟨hN.symm, Or.inr ⟨?_, rfl, by omega, ?_, rfl⟩⟩
          · simp [switch_capacity]
          · simp [switch_capacity]; omega
        have hc1 : 0 < s1.heap_.cap := by subst hs1; simp [switch_capacity]
        have hroom : l.length < s1.heap_.cap := by subst hs1; simp [switch_capacity]; omega
        have hcap1 : 2 * N + 1 ≤ s1.heap_.cap := by subst hs1; simp [switch_capacity]; omega
        have htr1 : s1.trace = s.trace ++ switch_events env N := by subst hs1; rfl
        obtain ⟨g1, g2, _, _⟩ := heap_push_back_spec env s1 l v ct hm1 hc1
        rw [hp] at h
        refine Or.inr (Or.inr (Or.inl ⟨hc, by omega, ?_, ?_⟩))
        · rcases h with h | ⟨e, h⟩
          · obtain ⟨_, _, c⟩ := g1 s' h
            rcases c with ⟨_, rfl⟩ | ⟨c, _⟩
            · exact hcap1
            · omega
          · obtain ⟨_, b, _⟩ := g2 e s' h
            rw [b]; exact hcap1
        · rcases h with h | ⟨e, h⟩
          · obtain ⟨_, _, c⟩ := g1 s' h
            rcases c with ⟨_, rfl⟩ | ⟨c, _⟩
            · exact htr1
            · omega
          · obtain ⟨_, _, _, _, _, f⟩ := g2 e s' h
            rw [(f hroom).1]; exact htr1
  · have hc' : 0 < s.heap_.cap := by omega
    have hu : s.using_heap = true := (using_heap_eq_true s).mpr hc'
    have hp : push_back_with ct env s v = heap_push_back env s v ct := by
      simp [push_back_with, hu]
    obtain ⟨g1, g2, _, _⟩ := heap_push_back_spec env s l v ct hm hc'
    rw [hp] at h
    refine Or.inr (Or.inr (Or.inr ⟨hc', ?_⟩))
    rcases h with h | ⟨e, h⟩
    · obtain ⟨_, _, c⟩ := g1 s' h
      rcases c with ⟨_, rfl⟩ | ⟨c, rfl⟩
      · exact ⟨le_refl _, [], by simp, by simp⟩
      · refine ⟨by show s.heap_.cap ≤ l.length + 1 + env.slack (l.length + 1); omega,
          _, rfl, ?_⟩
        intro x hx
        simp only [List.mem_cons, List.mem_singleton, List.not_mem_nil, or_false] at hx
        rcases hx with rfl | rfl <;> rfl
    · obtain ⟨_, b, _, _, tr, _⟩ := g2 e s' h
      refine ⟨by rw [b], ?_⟩
      rcases tr with tr | ⟨c, tr⟩
      · exact ⟨[], by simp [tr], by simp⟩
      · refine ⟨_, tr, ?_⟩
        intro x hx
        simp only [List.mem_cons, List.mem_singleton, List.not_mem_nil, or_false] at hx
        rcases hx with rfl | rfl <;> rfl

end SmallVector

namespace SmallVector

variable {T : Type} {N : Nat}

theorem ledger_inline (s : SmallVector T N) (hc : s.heap_.cap = 0) :
    Ledger s ↔ (notices s = switchovers s ∧ switchovers s = 0 ∧
      slot_events s.trace = (List.range s.size_).map Event.construct_inline) := by
  have hu : s.using_heap = false := (using_heap_eq_false s).mpr hc
  simp [Ledger, hu]

theorem ledger_heap (s : SmallVector T N) (hc : 0 < s.heap_.cap) :
    Ledger s ↔ (notices s = switchovers s ∧ switchovers s = 1 ∧
      slot_events s.trace = (List.range N).map Event.construct_inline
        ++ (List.range N).map Event.destroy_inline_elem ∧
      2 * N + 1 ≤ s.heap_.cap) := by
  have hu : s.using_heap = true := (using_heap_eq_true s).mpr hc
  simp [Ledger, hu]

theorem ledger_new : Ledger (new : SmallVector T N) := by
  rw [ledger_inline _ rfl]
  simp [new, notices, switchovers, slot_events]

theorem ledger_push (ct : Bool) (env : Env T) (s s' : SmallVector T N) (l : List T) (v : T)
    (hm : Models s l) (hl : Ledger s)
    (h : push_back_with ct env s v = .ok s' ∨ ∃ e, push_back_with ct env s v = .thrown e s') :
    Ledger s' := by
  rcases push_back_with_delta ct env s s' l v hm h with
    ⟨hc, hc', hsize, htr⟩ | ⟨hc, hc', hsize, ev, htr, hq⟩ | ⟨hc, hsN, hcap, htr⟩ |
    ⟨hc, hcap, ev, htr, hq⟩
  · obtain ⟨a, b, c⟩ := (ledger_inline s hc).mp hl
    rw [ledger_inline s' hc']
    simp only [notices, switchovers] at a b ⊢
    refine ⟨?_, ?_, ?_⟩
    · rw [htr, List.count_append, List.count_append, a]
      rfl
    · rw [htr, List.count_append, b]
      rfl
    · rw [htr, slot_events_append, c, hsize, List.range_succ, List.map_append]
      rfl
  · obtain ⟨a, b, c⟩ := (ledger_inline s hc).mp hl
    rw [ledger_inline s' hc']
    simp only [notices, switchovers] at a b ⊢
    refine ⟨?_, ?_, ?_⟩
    · rw [htr, List.count_append, List.count_append, a, quiet_count_cerr ev hq,
        quiet_count_install ev hq]
    · rw [htr, List.count_append, b, quiet_count_install ev hq]
    · rw [htr, slot_events_append, c, quiet_slot_events ev hq, hsize, List.append_nil]
  · obtain ⟨a, b, c⟩ := (ledger_inline s hc).mp hl
    rw [ledger_heap s' (by omega)]
    simp only [notices, switchovers] at a b ⊢
    refine ⟨?_, ?_, ?_, hcap⟩
    · rw [htr, List.count_append, List.count_append, a, count_cerr_switch_events,
        count_install_switch_events]
    · rw [htr, List.count_append, b, count_install_switch_events]
    · rw [htr, slot_events_append, c, slot_events_switch_events, hsN]
  · obtain ⟨a, b, c, d⟩ := (ledger_heap s hc).mp hl
    rw [ledger_heap s' (by omega)]
    simp only [notices, switchovers] at a b ⊢
    refine ⟨?_, ?_, ?_, by omega⟩
    · rw [htr, List.count_append, List.count_append, a, quiet_count_cerr ev hq,
        quiet_count_install ev hq]
    · rw [htr, List.count_append, b, quiet_count_install ev hq]
    · rw [htr, slot_events_append, c, quiet_slot_events ev hq, List.append_nil]

theorem ledger_same_trace (s s' : SmallVector T N) (hl : Ledger s) (ht : s'.trace = s.trace)
    (hs : s'.size_ = s.size_) (hc : s'.heap_.cap = s.heap_.cap) : Ledger s' := by
  have hu : s'.using_heap = s.using_heap := by
    simp [using_heap, StdVector.capacity, hc]
  simp only [Ledger, notices, switchovers, ht, hs, hu, hc] at hl ⊢
  exact hl

theorem ledger_step {s s' : SmallVector T N} {l : List T} (hm : Models s l) (hl : Ledger s)
    (h : Step s s') : Ledger s' := by
  cases h with
  | push_back_ok env _ v _ h =>
    rw [push_back_eq_with] at h
    exact ledger_push _ env s s' l v hm hl (Or.inl h)
  | push_back_thrown env _ v e _ h =>
    rw [push_back_eq_with] at h
    exact ledger_push _ env s s' l v hm hl (Or.inr ⟨e, h⟩)
  | push_back_move_ok env _ v _ h =>
    rw [push_back_move_eq_with] at h
    exact ledger_push _ env s s' l v hm hl (Or.inl h)
  | push_back_move_thrown env _ v e _ h =>
    rw [push_back_move_eq_with] at h
    exact ledger_push _ env s s' l v hm hl (Or.inr ⟨e, h⟩)
  | set _ i x _ h =>
    obtain ⟨_, _, ht, hs, hc⟩ := (set_spec s l i x hm).1 s' h
    exact ledger_same_trace s s' hl ht hs hc
  | assign _ it x _ h =>
    obtain ⟨_, _, _, _, ht, hs, hc⟩ := store_spec s l it.p x s' hm h
    exact ledger_same_trace s s' hl ht hs hc
  | read => exact hl

theorem reachable_ledger {s : SmallVector T N} (h : Reachable s) :
    (∃ l, Models s l) ∧ Ledger s := by
  induction h with
  | new => exact ⟨⟨[], models_new⟩, ledger_new⟩
  | step _ hstep ih =>
    obtain ⟨⟨l, hl⟩, hled⟩ := ih
    exact ⟨step_models hl hstep, ledger_step hl hled hstep⟩

end SmallVector

namespace SmallVector

variable {T : Type} {N : Nat}

theorem destructor_trace_of_models {s : SmallVector T N} {l : List T} (hm : Models s l) :
    (s.using_heap = false →
      (destructor s).trace = s.trace ++
        Event.cerr destroy_notice :: (List.range s.size_).map Event.destroy_inline_elem) ∧
    (s.using_heap = true →
      ∃ ev, (destructor s).trace = s.trace ++ ev ∧ ∀ x ∈ ev, is_quiet_event x = true) := by
  have hsz : s.size_ = l.length := hm.1
  obtain ⟨hin, hhp⟩ := models_mode hm
  constructor
  · intro hu
    obtain ⟨hc, he, _, hst⟩ := hin hu
    rw [destructor, destroy_inline_spec s l _ hc hsz hst]
    simp [StdVector.destructor_events, StdVector.release_events, he, hc, hsz]
  · intro hu
    refine ⟨s.heap_.destructor_events, by simp [destructor, destroy_inline, hu], ?_⟩
    intro x hx
    simp only [StdVector.destructor_events, StdVector.release_events, List.mem_append,
      List.mem_map] at hx
    rcases hx with ⟨i, _, rfl⟩ | hx
    · rfl
    · split at hx
      · simp only [List.mem_singleton] at hx
        subst hx
        rfl
      · cases hx

theorem destructor_slot_events {s : SmallVector T N} {l : List T} (hm : Models s l)
    (hl : Ledger s) :
    slot_events (destructor s).trace =
      (List.range (slots_used s)).map Event.construct_inline
        ++ (List.range (slots_used s)).map Event.destroy_inline_elem := by
  obtain ⟨h1, h2⟩ := destructor_trace_of_models hm
  by_cases hu : s.using_heap = true
  · obtain ⟨ev, hev, hq⟩ := h2 hu
    have hc := (using_heap_eq_true s).mp hu
    obtain ⟨_, _, c, _⟩ := (ledger_heap s hc).mp hl
    rw [hev, slot_events_append, quiet_slot_events ev hq, c]
    simp [slots_used, hu]
  · have hu' : s.using_heap = false := by simpa using hu
    have hc := (using_heap_eq_false s).mp hu'
    obtain ⟨_, _, c⟩ := (ledger_inline s hc).mp hl
    have hcons : ∀ tl : List Event,
        slot_events (Event.cerr destroy_notice :: tl) = slot_events tl := by
      intro tl
      simp [slot_events, List.filter_cons, is_slot_event]
    rw [h1 hu', slot_events_append, c, hcons,
      slot_events_map_keep Event.destroy_inline_elem (fun _ => rfl)]
    simp [slots_used, hu']

theorem count_slot_list (m i : Nat) :
    ((List.range m).map Event.construct_inline
        ++ (List.range m).map Event.destroy_inline_elem).count (Event.construct_inline i)
      = (if i < m then 1 else 0) ∧
    ((List.range m).map Event.construct_inline
        ++ (List.range m).map Event.destroy_inline_elem).count (Event.destroy_inline_elem i)
      = (if i < m then 1 else 0) := by
  have hr : (List.range m).count i = if i < m then 1 else 0 := by
    rw [List.count_eq_of_nodup (List.nodup_range m)]
    simp
  have hc : Function.Injective Event.construct_inline := fun a b h => by cases h; rfl
  have hd : Function.Injective Event.destroy_inline_elem := fun a b h => by cases h; rfl
  have z1 : ((List.range m).map Event.destroy_inline_elem).count (Event.construct_inline i)
      = 0 := List.count_eq_zero.mpr (by simp)
  have z2 : ((List.range m).map Event.construct_inline).count (Event.destroy_inline_elem i)
      = 0 := List.count_eq_zero.mpr (by simp)
  constructor
  · rw [List.count_append, List.count_map_of_injective _ _ hc, hr, z1, Nat.add_zero]
  · rw [List.count_append, List.count_map_of_injective _ _ hd, hr, z2, Nat.zero_add]

theorem countP_slot_list (m : Nat) :
    ((List.range m).map Event.construct_inline
        ++ (List.range m).map Event.destroy_inline_elem).countP is_inline_construction = m ∧
    ((List.range m).map Event.construct_inline
        ++ (List.range m).map Event.destroy_inline_elem).countP is_inline_destruction = m := by
  have a1 : ((List.range m).map Event.construct_inline).countP is_inline_construction = m := by
    rw [List.countP_eq_length.mpr]
    · simp
    · intro a ha
      obtain ⟨i, _, rfl⟩ := List.mem_map.mp ha
      rfl
  have a2 : ((List.range m).map Event.destroy_inline_elem).countP is_inline_construction
      = 0 := by
    rw [List.countP_eq_zero]
    intro a ha
    obtain ⟨i, _, rfl⟩ := List.mem_map.mp ha
    simp [is_inline_construction]
  have b1 : ((List.range m).map Event.construct_inline).countP is_inline_destruction = 0 := by
    rw [List.countP_eq_zero]
    intro a ha
    obtain ⟨i, _, rfl⟩ := List.mem_map.mp ha
    simp [is_inline_destruction]
  have b2 : ((List.range m).map Event.destroy_inline_elem).countP is_inline_destruction
      = m := by
    rw [List.countP_eq_length.mpr]
    · simp
    · intro a ha
      obtain ⟨i, _, rfl⟩ := List.mem_map.mp ha
      rfl
  exact ⟨by rw [List.countP_append, a1, a2, Nat.add_zero],
    by rw [List.countP_append, b1, b2, Nat.zero_add]⟩

theorem countP_slot_events (tr : List Event) :
    tr.countP is_inline_construction = (slot_events tr).countP is_inline_construction ∧
    tr.countP is_inline_destruction = (slot_events tr).countP is_inline_destruction := by
  constructor
  · rw [slot_events, List.countP_filter]
    congr 1
    funext a
    cases a <;> rfl
  · rw [slot_events, List.countP_filter]
    congr 1
    funext a
    cases a <;> rfl

theorem begin_of_heap_eq (s s' : SmallVector T N) (h : s'.heap_.cap = s.heap_.cap)
    (hb : s'.heap_.buf = s.heap_.buf) : s'.begin = s.begin := by
  simp [begin, using_heap, StdVector.capacity, StdVector.data, h, hb]

theorem run_ops_appended_only :
    ∀ (ops : List (Op T)) (s s' : SmallVector T N) (l : List T),
      AppendedOnly s l → run_ops s ops = some s' → ∃ l', AppendedOnly s' l' := by
  intro ops
  induction ops with
  | nil =>
    intro s s' l ha h
    simp only [run_ops, Option.some.injEq] at h
    subst h
    exact ⟨l, ha⟩
  | cons op rest ih =>
    intro s s' l ha h
    simp only [run_ops] at h
    cases hop : run_op s op with
    | none => rw [hop] at h; cases h
    | some s1 =>
      rw [hop] at h
      cases op with
      | append env v =>
        simp only [run_op] at hop
        cases hp : push_back env s v with
        | ok s2 =>
          rw [hp] at hop
          simp only [Option.some.injEq] at hop
          subst hop
          rw [push_back_eq_with] at hp
          exact ih s2 s' _ (appended_only_step _ env s s2 l v ha hp).1 h
        | thrown e s2 => rw [hp] at hop; cases hop
        | undefined => rw [hp] at hop; cases hop
      | append_move env v =>
        simp only [run_op] at hop
        cases hp : push_back_move env s v with
        | ok s2 =>
          rw [hp] at hop
          simp only [Option.some.injEq] at hop
          subst hop
          rw [push_back_move_eq_with] at hp
          exact ih s2 s' _ (appended_only_step _ env s s2 l v ha hp).1 h
        | thrown e s2 => rw [hp] at hop; cases hop
        | undefined => rw [hp] at hop; cases hop
      | set j x =>
        simp only [run_op] at hop
        obtain ⟨hm, hmode, hsw, hal⟩ := ha
        obtain ⟨_, hm1, ht, _, hc⟩ := (set_spec s l j x hm).1 s1 hop
        refine ih s1 s' (l.set j x) ⟨hm1, ?_, ?_, ?_⟩ h
        · rw [hc, List.length_set]; exact hmode
        · simp only [switchovers, ht, List.length_set]; exact hsw
        · simp only [heap_allocations, ht, List.length_set]; exact hal

end SmallVector

/-! ## The claims on the notice, lifetimes, relocation and the two overloads -/

theorem push_notices {T : Type} {N : Nat} (ct : Bool) (env : Env T) (s s' : SmallVector T N)
    (l : List T) (v : T) (hm : Models s l) (hl : Ledger s)
    (h : push_back_with ct env s v = .ok s' ∨ ∃ e, push_back_with ct env s v = .thrown e s') :
    (notices s' = notices s ∧ switchovers s' = switchovers s) ∨
    (notices s' = notices s + 1 ∧ switchovers s' = switchovers s + 1) := by
  have hl' := ledger_push ct env s s' l v hm hl h
  rcases push_back_with_delta ct env s s' l v hm h with
    ⟨hc, hc', _, _⟩ | ⟨hc, hc', _, _⟩ | ⟨hc, _, hcap, _⟩ | ⟨hc, hcap, _⟩
  · obtain ⟨a, b, _⟩ := (ledger_inline s hc).mp hl
    obtain ⟨a', b', _⟩ := (ledger_inline s' hc').mp hl'
    exact Or.inl ⟨by omega, by omega⟩
  · obtain ⟨a, b, _⟩ := (ledger_inline s hc).mp hl
    obtain ⟨a', b', _⟩ := (ledger_inline s' hc').mp hl'
    exact Or.inl ⟨by omega, by omega⟩
  · obtain ⟨a, b, _⟩ := (ledger_inline s hc).mp hl
    obtain ⟨a', b', _⟩ := (ledger_heap s' (by omega)).mp hl'
    exact Or.inr ⟨by omega, by omega⟩
  · obtain ⟨a, b, _⟩ := (ledger_heap s hc).mp hl
    obtain ⟨a', b', _⟩ := (ledger_heap s' (by omega)).mp hl'
    exact Or.inl ⟨by omega, by omega⟩

/-- C21: an append writes the notice of the inline teardown exactly when it
performs the switchover, and then once: from any reachable state an append,
by copy or by move, returning normally or throwing, either writes nothing and
completes no switchover or writes the notice once and completes one.  On a
new container whose appends return normally the `(N+1)`-th append writes the
notice once and every other append writes nothing. -/
theorem notice_exactly_at_switchover (T : Type) (N : Nat) :
    (∀ (env : Env T) (v : T) (s s' : SmallVector T N), Reachable s →
      (push_back env s v = .ok s' ∨ push_back_move env s v = .ok s' ∨
        ∃ e, push_back env s v = .thrown e s' ∨ push_back_move env s v = .thrown e s') →
      (notices s' = notices s ∧ switchovers s' = switchovers s) ∨
      (notices s' = notices s + 1 ∧ switchovers s' = switchovers s + 1)) ∧
    (∀ (xs : List (Env T × T)) (s : SmallVector T N), push_all new xs = .ok s →
      notices s = (if xs.length ≤ N then 0 else 1)) ∧
    (∀ (xs : List (Env T × T)) (env : Env T) (v : T) (s1 s2 : SmallVector T N),
      push_all new xs = .ok s1 → push_back env s1 v = .ok s2 →
      notices s2 = notices s1 + (if xs.length = N then 1 else 0)) := by
  have hcount : ∀ (xs : List (Env T × T)) (s : SmallVector T N), push_all new xs = .ok s →
      notices s = switchovers s ∧ switchovers s = (if xs.length ≤ N then 0 else 1) := by
    intro xs s h
    have hr := push_all_reachable xs new s Reachable.new h
    obtain ⟨_, _, hsw, _⟩ := push_all_spec xs new s [] appended_only_new h
    simp only [List.nil_append, List.length_map] at hsw
    exact ⟨(reachable_ledger hr).2.1, hsw⟩
  refine ⟨?_, ?_, ?_⟩
  · intro env v s s' hr h
    obtain ⟨⟨l, hm⟩, hl⟩ := reachable_ledger hr
    rcases h with h | h | ⟨e, h | h⟩
    · exact push_notices _ env s s' l v hm hl (Or.inl (by rw [← push_back_eq_with]; exact h))
    · exact push_notices _ env s s' l v hm hl
        (Or.inl (by rw [← push_back_move_eq_with]; exact h))
    · exact push_notices _ env s s' l v hm hl
        (Or.inr ⟨e, by rw [← push_back_eq_with]; exact h⟩)
    · exact push_notices _ env s s' l v hm hl
        (Or.inr ⟨e, by rw [← push_back_move_eq_with]; exact h⟩)
  · intro xs s h
    obtain ⟨a, b⟩ := hcount xs s h
    rw [a, b]
  · intro xs env v s1 s2 h1 h2
    have ha := push_all_spec xs new s1 [] appended_only_new h1
    have hr1 := push_all_reachable xs new s1 Reachable.new h1
    have hr2 : Reachable s2 := Reachable.step hr1 (Step.push_back_ok env s1 v s2 h2)
    rw [push_back_eq_with] at h2
    have hstep := (appended_only_step _ env s1 s2 _ v ha h2).2
    simp only [List.nil_append, List.length_map] at hstep
    rw [(reachable_ledger hr2).2.1, (reachable_ledger hr1).2.1, hstep]

theorem notice_exactly_at_switchover_witness :
    push_values new (List.range 10) = .ok main_example ∧ notices main_example = 1 ∧
    push_values new [7, 8, 9] = .ok three_example ∧ notices three_example = 0 :=
  ⟨rfl,
    (notice_exactly_at_switchover Nat 4).2.1
      ((List.range 10).map (fun v => (Env.benign Nat, v))) main_example rfl,
    rfl,
    (notice_exactly_at_switchover Nat 4).2.1
      ([7, 8, 9].map (fun v => (Env.benign Nat, v))) three_example rfl⟩

/-- C22, as stated, fails: a container of inline capacity 2 whose third append
switched to the heap and then threw from the element's copy constructor is
reachable, is in heap mode, and has `size() = 2`, which is not above `N`. -/
theorem heap_mode_at_size_N :
    Reachable switch_only_example ∧ switch_only_example.using_heap = true ∧
    switch_only_example.size = 2 ∧
    ¬ (switch_only_example.using_heap = true ↔ 2 < switch_only_example.size) :=
  ⟨Reachable.step (push_values_reachable [5, 6] full_inline_example rfl)
      (Step.push_back_thrown throwing_copy_env full_inline_example 7 Exn.element
        switch_only_example rfl),
    rfl, rfl, by decide⟩

/-- C22, amended: in every state reachable from a new container by public
operations, inline mode implies `size() ≤ N` and heap mode implies
`size() ≥ N`; when every append made so far has returned normally, the
container is in heap mode if and only if `size() > N`, for every `N`, `N = 0`
included. -/
theorem mode_and_size (T : Type) (N : Nat) :
    (∀ s : SmallVector T N, Reachable s →
      (s.using_heap = false → s.size ≤ N) ∧ (s.using_heap = true → N ≤ s.size)) ∧
    (∀ (ops : List (Op T)) (s : SmallVector T N), run_ops new ops = some s →
      (s.using_heap = true ↔ N < s.size)) := by
  constructor
  · intro s hr
    obtain ⟨l, hm⟩ := reachable_models hr
    have hsz : s.size_ = l.length := hm.1
    obtain ⟨hin, hhp⟩ := models_mode hm
    constructor
    · intro hu
      obtain ⟨_, _, hle, _⟩ := hin hu
      simp only [size]; omega
    · intro hu
      obtain ⟨_, _, hle, _⟩ := hhp hu
      simp only [size]; omega
  · intro ops s h
    obtain ⟨l, hm, hmode, _⟩ := run_ops_appended_only ops new s [] appended_only_new h
    have hsz : s.size_ = l.length := hm.1
    rw [using_heap_eq_true]
    simp only [size, hsz]
    constructor
    · intro hc
      by_contra hcon
      have := hmode.mpr (by omega)
      omega
    · intro hlt
      by_contra hcon
      have := hmode.mp (by omega)
      omega

theorem mode_and_size_witness :
    Reachable switch_only_example ∧
    (switch_only_example.using_heap = true → 2 ≤ switch_only_example.size) ∧
    run_ops new example_ops = some example_ops_result ∧
    (example_ops_result.using_heap = true ↔ 2 < example_ops_result.size) :=
  ⟨Reachable.step (push_values_reachable [5, 6] full_inline_example rfl)
      (Step.push_back_thrown throwing_copy_env full_inline_example 7 Exn.element
        switch_only_example rfl),
    ((mode_and_size Nat 2).1 switch_only_example
      (Reachable.step (push_values_reachable [5, 6] full_inline_example rfl)
        (Step.push_back_thrown throwing_copy_env full_inline_example 7 Exn.element
          switch_only_example rfl))).2,
    rfl, (mode_and_size Nat 2).2 example_ops example_ops_result rfl⟩

/-- C23: when, in the append made at `size() = N` in inline mode, the
switchover completes and the construction of the new element then throws (the
copy in the copy overload, the move in the move overload), the append throws
the element's exception and leaves the container in heap mode with
`size() = N` and the same `N` elements at the same indices: the failed append
has changed the mode, not the length or the contents. -/
theorem ctor_failure_after_switch {T : Type} {N : Nat} {s s1 : SmallVector T N}
    (hr : Reachable s) (env : Env T) (v : T) (hu : s.using_heap = false)
    (hfull : ¬ s.size < N) (hsw : switch_to_heap env s = .ok s1) :
    (env.copyThrows v = true → push_back env s v = .thrown .element s1) ∧
    (env.moveThrows v = true → push_back_move env s v = .thrown .element s1) ∧
    s1.using_heap = true ∧ s1.size = N ∧ s1.size = s.size ∧ ∀ i, s1.get i = s.get i := by
  obtain ⟨l, hm⟩ := reachable_models hr
  have hsz : s.size_ = l.length := hm.1
  obtain ⟨hc, _, hle, _⟩ := (models_mode hm).1 hu
  have hfull' : ¬ s.size_ < N := hfull
  have hN : l.length = N := by omega
  obtain ⟨_, hs1⟩ := (switch_to_heap_spec env s l hm hc hN).1 s1 hsw
  have hm1 : Models s1 l := by
    subst hs1
    refine ⟨hN.symm, Or.inr ⟨?_, rfl, by omega, ?_, rfl⟩⟩
    · simp [switch_capacity]
    · simp [switch_capacity]; omega
  have hc1 : 0 < s1.heap_.cap := by subst hs1; simp [switch_capacity]
  have hroom : l.length < s1.heap_.cap := by subst hs1; simp [switch_capacity]; omega
  have key : push_back_with true env s v = .thrown .element s1 := by
    have hp : push_back_with true env s v = heap_push_back env s1 v true := by
      simp [push_back_with, hu, hfull', hsw]
    obtain ⟨g1, g2, g3, _⟩ := heap_push_back_spec env s1 l v true hm1 hc1
    rw [hp]
    cases hh : heap_push_back env s1 v true with
    | undefined => exact absurd hh g3
    | ok s2 =>
      have := (g1 s2 hh).1
      cases this
    | thrown e s2 =>
      obtain ⟨_, _, _, _, _, f⟩ := g2 e s2 hh
      obtain ⟨f1, f2, _⟩ := f hroom
      rw [f1, f2]
  refine ⟨?_, ?_, (using_heap_eq_true s1).mpr hc1, ?_, ?_, ?_⟩
  · intro hct
    rw [push_back_eq_with, hct]; exact key
  · intro hct
    rw [push_back_move_eq_with, hct]; exact key
  · show s1.size_ = N
    rw [hm1.1]; exact hN
  · show s1.size_ = s.size_
    rw [hm1.1, hsz]
  · intro i
    rw [get_of_models hm1, get_of_models hm]

theorem ctor_failure_after_switch_witness :
    Reachable full_inline_example ∧
    switch_to_heap throwing_copy_env full_inline_example = .ok switch_only_example ∧
    push_back throwing_copy_env full_inline_example 7 = .thrown .element switch_only_example ∧
    switch_only_example.using_heap = true ∧ switch_only_example.size = 2 ∧
    switch_only_example.get 0 = some 5 ∧ switch_only_example.get 1 = some 6 :=
  ⟨push_values_reachable [5, 6] full_inline_example rfl, rfl,
    (ctor_failure_after_switch (push_values_reachable [5, 6] full_inline_example rfl)
      throwing_copy_env 7 rfl (by decide) rfl).1 rfl,
    rfl, rfl, rfl, rfl⟩

/-- C24: over the whole life of a container (construction, any public
operations, destruction) the lifetime events of the inline slots are exactly:
slots `0 .. m-1` constructed once each, then slots `0 .. m-1` destroyed once
each, where `m` is the number of slots used.  So every element constructed in
an inline slot is destroyed there exactly once, no slot is destroyed twice and
none is left; the destructions happen at the switchover when one has occurred
and at destruction otherwise; after `k` appends that returned normally
`m = min(k, N)`. -/
theorem inline_lifetimes_balanced (T : Type) (N : Nat) :
    (∀ s : SmallVector T N, Reachable s →
      slot_events (destructor s).trace =
        (List.range (slots_used s)).map Event.construct_inline
          ++ (List.range (slots_used s)).map Event.destroy_inline_elem ∧
      (∀ i, (destructor s).trace.count (Event.construct_inline i)
            = (if i < slots_used s then 1 else 0) ∧
          (destructor s).trace.count (Event.destroy_inline_elem i)
            = (if i < slots_used s then 1 else 0)) ∧
      (destructor s).trace.countP is_inline_construction = slots_used s ∧
      (destructor s).trace.countP is_inline_destruction = slots_used s ∧
      (s.using_heap = true → ∀ i, s.trace.count (Event.destroy_inline_elem i)
        = (destructor s).trace.count (Event.destroy_inline_elem i)) ∧
      (s.using_heap = false → ∀ i, s.trace.count (Event.destroy_inline_elem i) = 0)) ∧
    (∀ (xs : List (Env T × T)) (s : SmallVector T N), push_all new xs = .ok s →
      slots_used s = min xs.length N) := by
  constructor
  · intro s hr
    obtain ⟨⟨l, hm⟩, hl⟩ := reachable_ledger hr
    have hslots := destructor_slot_events hm hl
    have hcnt : ∀ (tr : List Event) (a : Event), is_slot_event a = true →
        tr.count a = (slot_events tr).count a := by
      intro tr a ha
      rw [slot_events, List.count_filter ha]
    have hfinal : ∀ i, (destructor s).trace.count (Event.construct_inline i)
            = (if i < slots_used s then 1 else 0) ∧
          (destructor s).trace.count (Event.destroy_inline_elem i)
            = (if i < slots_used s then 1 else 0) := by
      intro i
      rw [hcnt _ (Event.construct_inline i) rfl, hcnt _ (Event.destroy_inline_elem i) rfl,
        hslots]
      exact count_slot_list (slots_used s) i
    refine ⟨hslots, hfinal, ?_, ?_, ?_, ?_⟩
    · rw [(countP_slot_events _).1, hslots]
      exact (countP_slot_list _).1
    · rw [(countP_slot_events _).2, hslots]
      exact (countP_slot_list _).2
    · intro hu i
      have hc := (using_heap_eq_true s).mp hu
      obtain ⟨_, _, c, _⟩ := (ledger_heap s hc).mp hl
      rw [(hfinal i).2, hcnt _ (Event.destroy_inline_elem i) rfl, c]
      have := (count_slot_list N i).2
      simpa [slots_used, hu] using this
    · intro hu i
      have hc := (using_heap_eq_false s).mp hu
      obtain ⟨_, _, c⟩ := (ledger_inline s hc).mp hl
      rw [hcnt _ (Event.destroy_inline_elem i) rfl, c]
      exact List.count_eq_zero.mpr (by simp)
  · intro xs s h
    obtain ⟨hm, hmode, _, _⟩ := push_all_spec xs new s [] appended_only_new h
    simp only [List.nil_append, List.length_map] at hm hmode
    have hsz : s.size_ = xs.length := by simpa using hm.1
    by_cases hc : s.heap_.cap = 0
    · have hu := (using_heap_eq_false s).mpr hc
      have := hmode.mp hc
      simp only [slots_used, hu, Bool.false_eq_true, if_false, hsz]
      omega
    · have hu := (using_heap_eq_true s).mpr (by omega)
      have : ¬ xs.length ≤ N := fun hle => hc (hmode.mpr hle)
      simp only [slots_used, hu, if_true]
      omega

theorem inline_lifetimes_balanced_witness :
    push_values new (List.range 10) = .ok main_example ∧ slots_used main_example = 4 ∧
    slot_events (destructor main_example).trace =
      [Event.construct_inline 0, Event.construct_inline 1, Event.construct_inline 2,
       Event.construct_inline 3, Event.destroy_inline_elem 0, Event.destroy_inline_elem 1,
       Event.destroy_inline_elem 2, Event.destroy_inline_elem 3] :=
  ⟨rfl,
    (inline_lifetimes_balanced Nat 4).2
      ((List.range 10).map (fun v => (Env.benign Nat, v))) main_example rfl,
    ((inline_lifetimes_balanced Nat 4).1 main_example
      (push_values_reachable (List.range 10) main_example rfl)).1⟩

/-- C25: a heap buffer in use has capacity at least `2N + 1`, so from a
reachable state in heap mode an append made at `size() ≤ 2N`, returning
normally or throwing, leaves the buffer in place: `begin()` and the capacity
are what they were.  An append that changes `begin()` is therefore made at
`size() ≥ 2N + 1`; and an append that returns normally with the buffer full
does move the elements to the buffer the allocator hands out. -/
theorem no_relocation_with_room {T : Type} {N : Nat} {s s' : SmallVector T N}
    (hr : Reachable s) (hu : s.using_heap = true) (env : Env T) (v : T)
    (h : push_back env s v = .ok s' ∨ push_back_move env s v = .ok s' ∨
      ∃ e, push_back env s v = .thrown e s' ∨ push_back_move env s v = .thrown e s') :
    2 * N + 1 ≤ s.heap_.capacity ∧
    (s.size ≤ 2 * N → s'.begin = s.begin ∧ s'.heap_.capacity = s.heap_.capacity) ∧
    (s'.begin ≠ s.begin → 2 * N + 1 ≤ s.size) ∧
    (s.heap_.capacity ≤ s.size →
      (push_back env s v = .ok s' ∨ push_back_move env s v = .ok s') →
      s'.begin = ⟨⟨Block.heap env.fresh, 0⟩⟩) := by
  obtain ⟨⟨l, hm⟩, hl⟩ := reachable_ledger hr
  have hsz : s.size_ = l.length := hm.1
  have hc : 0 < s.heap_.cap := (using_heap_eq_true s).mp hu
  obtain ⟨_, _, _, hcap⟩ := (ledger_heap s hc).mp hl
  have hgen : ∃ ct, push_back_with ct env s v = .ok s' ∨
      ∃ e, push_back_with ct env s v = .thrown e s' := by
    rcases h with h | h | ⟨e, h | h⟩
    · exact ⟨_, Or.inl (by rw [← push_back_eq_with]; exact h)⟩
    · exact ⟨_, Or.inl (by rw [← push_back_move_eq_with]; exact h)⟩
    · exact ⟨_, Or.inr ⟨e, by rw [← push_back_eq_with]; exact h⟩⟩
    · exact ⟨_, Or.inr ⟨e, by rw [← push_back_move_eq_with]; exact h⟩⟩
  obtain ⟨ct, hct⟩ := hgen
  have hp : push_back_with ct env s v = heap_push_back env s v ct := by
    simp [push_back_with, hu]
  rw [hp] at hct
  obtain ⟨g1, g2, _, _⟩ := heap_push_back_spec env s l v ct hm hc
  have hstay : s.size ≤ 2 * N →
      s'.begin = s.begin ∧ s'.heap_.capacity = s.heap_.capacity := by
    intro hsize
    have hroom : l.length < s.heap_.cap := by simp only [size] at hsize; omega
    rcases hct with hok | ⟨e, hth⟩
    · obtain ⟨_, _, c⟩ := g1 s' hok
      rcases c with ⟨_, rfl⟩ | ⟨c, _⟩
      · exact ⟨begin_of_heap_eq _ _ rfl rfl, rfl⟩
      · omega
    · obtain ⟨_, b, _⟩ := g2 e s' hth
      exact ⟨begin_of_heap_eq _ _ (by rw [b]) (by rw [b]), by rw [b]⟩
  refine ⟨hcap, hstay, ?_, ?_⟩
  · intro hne
    by_contra hcon
    exact hne (hstay (by omega)).1
  · intro hfull hok
    have hfull' : s.heap_.cap ≤ l.length := by
      have : s.heap_.cap ≤ s.size_ := hfull
      omega
    have hok' : heap_push_back env s v ct = .ok s' := by
      rcases hct with hok' | ⟨e, hth⟩
      · exact hok'
      · have hcontra : ∃ ct', push_back_with ct' env s v = .ok s' := by
          rcases hok with hok | hok
          · exact ⟨_, by rw [← push_back_eq_with]; exact hok⟩
          · exact ⟨_, by rw [← push_back_move_eq_with]; exact hok⟩
        obtain ⟨ct', hct'⟩ := hcontra
        have hthrown_size := (g2 e s' hth).1
        have hok_size := ((push_back_with_spec ct' env s l v hm).1 s' hct').2.1.1
        simp at hok_size
        omega
    obtain ⟨_, _, c⟩ := g1 s' hok'
    rcases c with ⟨c, _⟩ | ⟨_, rfl⟩
    · omega
    · simp [begin, using_heap, StdVector.capacity, StdVector.data]

theorem no_relocation_with_room_witness :
    Reachable switched_example ∧
    push_back second_buffer_env switched_example 8
      = .ok ⟨4, ⟨[5, 6, 7, 8], 5, 1⟩, [none, none], switched_example.trace⟩ ∧
    (2 * 2 + 1 ≤ switched_example.heap_.capacity ∧
      (switched_example.size ≤ 2 * 2 →
        (⟨4, ⟨[5, 6, 7, 8], 5, 1⟩, [none, none], switched_example.trace⟩ :
            SmallVector Nat 2).begin = switched_example.begin ∧
          (⟨4, ⟨[5, 6, 7, 8], 5, 1⟩, [none, none], switched_example.trace⟩ :
            SmallVector Nat 2).heap_.capacity = switched_example.heap_.capacity)) ∧
    (match push_back second_buffer_env full_heap_example 10 with
      | .ok s => s.begin
      | _ => full_heap_example.begin) ≠ full_heap_example.begin :=
  ⟨push_values_reachable [5, 6, 7] switched_example rfl, rfl,
    ⟨(no_relocation_with_room (push_values_reachable [5, 6, 7] switched_example rfl) rfl
        second_buffer_env 8 (Or.inl rfl)).1,
      (no_relocation_with_room (push_values_reachable [5, 6, 7] switched_example rfl) rfl
        second_buffer_env 8 (Or.inl rfl)).2.1⟩,
    by decide⟩

/-- C26: over the life of a container the notice is written exactly once:
for every reachable state the trace after destruction holds the notice once.
In heap mode the switchover has written it and the destructor writes nothing;
in inline mode nothing has written it and the destructor does, also for an
empty container.  After `k` appends that returned normally the container is
in heap mode exactly when `k > N`. -/
theorem notice_once_per_lifetime (T : Type) (N : Nat) :
    (∀ s : SmallVector T N, Reachable s →
      notices (destructor s) = 1 ∧
      (s.using_heap = true → notices s = 1 ∧ switchovers s = 1 ∧
        notices (destructor s) = notices s) ∧
      (s.using_heap = false → notices s = 0 ∧ switchovers s = 0 ∧
        notices (destructor s) = notices s + 1)) ∧
    (∀ (xs : List (Env T × T)) (s : SmallVector T N), push_all new xs = .ok s →
      (s.using_heap = true ↔ N < xs.length)) ∧
    (destructor (new : SmallVector T N)).trace = [Event.cerr destroy_notice] := by
  refine ⟨?_, ?_, ?_⟩
  · intro s hr
    obtain ⟨⟨l, hm⟩, hl⟩ := reachable_ledger hr
    obtain ⟨h1, h2⟩ := destructor_trace_of_models hm
    have hheap : s.using_heap = true → notices s = 1 ∧ switchovers s = 1 ∧
        notices (destructor s) = notices s := by
      intro hu
      have hc := (using_heap_eq_true s).mp hu
      obtain ⟨a, b, _⟩ := (ledger_heap s hc).mp hl
      obtain ⟨ev, hev, hq⟩ := h2 hu
      refine ⟨by omega, b, ?_⟩
      simp only [notices]
      rw [hev, List.count_append, quiet_count_cerr ev hq, Nat.add_zero]
    have hinl : s.using_heap = false → notices s = 0 ∧ switchovers s = 0 ∧
        notices (destructor s) = notices s + 1 := by
      intro hu
      have hc := (using_heap_eq_false s).mp hu
      obtain ⟨a, b, _⟩ := (ledger_inline s hc).mp hl
      refine ⟨by omega, b, ?_⟩
      have hz : ((List.range s.size_).map Event.destroy_inline_elem).count
          (Event.cerr destroy_notice) = 0 := List.count_eq_zero.mpr (by simp)
      simp only [notices]
      rw [h1 hu, List.count_append, List.count_cons, hz]
      simp
    refine ⟨?_, hheap, hinl⟩
    by_cases hu : s.using_heap = true
    · obtain ⟨a, _, c⟩ := hheap hu
      omega
    · obtain ⟨a, _, c⟩ := hinl (by simpa using hu)
      omega
  · intro xs s h
    obtain ⟨_, hmode, _, _⟩ := push_all_spec xs new s [] appended_only_new h
    simp only [List.nil_append, List.length_map] at hmode
    rw [using_heap_eq_true]
    constructor
    · intro hc
      by_contra hcon
      have := hmode.mpr (by omega)
      omega
    · intro hlt
      by_contra hcon
      have := hmode.mp (by omega)
      omega
  · simp [destructor, destroy_inline, new, using_heap, StdVector.capacity, StdVector.empty,
      StdVector.destructor_events, StdVector.release_events]

theorem notice_once_per_lifetime_witness :
    push_values new (List.range 10) = .ok main_example ∧
    notices (destructor main_example) = 1 ∧
    push_values new [7, 8, 9] = .ok three_example ∧
    notices (destructor three_example) = 1 ∧
    (three_example.using_heap = true ↔ 4 < 3) :=
  ⟨rfl,
    ((notice_once_per_lifetime Nat 4).1 main_example
      (push_values_reachable (List.range 10) main_example rfl)).1,
    rfl,
    ((notice_once_per_lifetime Nat 4).1 three_example
      (push_values_reachable [7, 8, 9] three_example rfl)).1,
    (notice_once_per_lifetime Nat 4).2.1
      ([7, 8, 9].map (fun v => (Env.benign Nat, v))) three_example rfl⟩

/-- C27: from every reachable state the append by copy and the append by move
of the same value (a move hands over the value of its source) give the same
result whenever the two constructors agree on throwing; in particular, when
both appends return normally the resulting containers are equal: same mode,
same length, same elements, and a switchover taken in the one exactly when it
is taken in the other. -/
theorem copy_and_move_agree {T : Type} {N : Nat} {s : SmallVector T N} (hr : Reachable s)
    (env : Env T) (v : T) :
    (env.copyThrows v = env.moveThrows v → push_back env s v = push_back_move env s v) ∧
    (∀ s1 s2, push_back env s v = .ok s1 → push_back_move env s v = .ok s2 →
      s1 = s2 ∧ s1.using_heap = s2.using_heap ∧ s1.size = s2.size ∧
      (∀ i, s1.get i = s2.get i) ∧ switchovers s1 = switchovers s2 ∧
      s1.get s.size = some v) := by
  obtain ⟨l, hm⟩ := reachable_models hr
  constructor
  · intro h
    rw [push_back_eq_with, push_back_move_eq_with, h]
  · intro s1 s2 h1 h2
    rw [push_back_eq_with] at h1
    rw [push_back_move_eq_with] at h2
    obtain ⟨c1, hm1, _⟩ := (push_back_with_spec _ env s l v hm).1 s1 h1
    obtain ⟨c2, _, _⟩ := (push_back_with_spec _ env s l v hm).1 s2 h2
    rw [c1] at h1
    rw [c2, h1] at h2
    simp only [Res.ok.injEq] at h2
    subst h2
    refine ⟨rfl, rfl, rfl, fun _ => rfl, rfl, ?_⟩
    have hsz : s.size = l.length := hm.1
    rw [get_of_models hm1, hsz]
    simp

theorem copy_and_move_agree_witness :
    Reachable full_inline_example ∧
    push_back (Env.benign Nat) full_inline_example 7
      = push_back_move (Env.benign Nat) full_inline_example 7 ∧
    push_back_move (Env.benign Nat) full_inline_example 7 = .ok switched_example :=
  ⟨push_values_reachable [5, 6] full_inline_example rfl,
    (copy_and_move_agree (push_values_reachable [5, 6] full_inline_example rfl)
      (Env.benign Nat) 7).1 rfl,
    rfl⟩

end SmallVec
